import Mathlib

/-!
Verification of the order-sheet builder (scripts/build_output_ods.py).

The script fills a run-length-compressed spreadsheet from CSV records.  We give
a shallow embedding of its data model and operations and prove the frozen
claims about them.

Modelling conventions for the external collaborators (the ODF document library
and the stdlib Decimal type are third-party code, not part of this repository;
the spec declares them thin external wrappers):

* An element attribute dictionary is a Python dict from attribute names to
  values; the library stores the keys in hyphen-stripped form ("valuetype",
  "numberrowsrepeated"), as `canonKeys` records for loaded documents.  The
  getter and setter API resolves a requested name up to removal of hyphen
  characters (`canonAttr`), so "value-type" and "valuetype" address the same
  attribute through `getAttribute`/`setAttribute`; raw dictionary operations
  (membership, pop, iteration, `dict(...)` copies) are exact-string dict
  operations and resolve nothing (`popAttrExact`).
* Python `str.replace(x, "")` for a one-character pattern, `str.strip()`,
  `str.join`, `str(n)` for a natural number and `int(s)` for a digit string
  are modelled by `pyReplaceChar`, `pyStrip`, `joinComma`, `natToString` and
  `strToNat?`.
* `decimal.Decimal` is modelled exactly as a scaled integer (`Dec`): parsing
  accepts an optional sign, integer digits and an optional fraction, addition
  and subtraction are exact with the result scale the maximum of the operand
  scales, comparison is numeric, and rendering is positional.  The claims
  exercise no special values, exponents or precision rounding.
* A CSV record (csv.DictReader row) is a partial map from column names to
  strings; a missing column and a None value both normalise to the empty
  string, which is the only way the script observes them.
-/

/-! ## Attribute dictionaries -/

/-- Association list of attribute name/value pairs (a Python dict preserving
insertion order). -/
abbrev Attrs := List (String × String)

/-- Canonical form of an attribute name: the library addresses the same
attribute under its hyphenated and hyphen-stripped names, so keys are compared
after dropping hyphen characters. -/
def canonAttr (s : String) : String :=
  ⟨s.data.filter (fun c => c ≠ '-')⟩

/-- Dictionary lookup, up to canonical attribute names. -/
def getAttr : Attrs → String → Option String
  | [], _ => none
  | p :: rest, k =>
    if canonAttr p.1 = canonAttr k then some p.2 else getAttr rest k

/-- Dictionary update: overwrite the first entry with the same canonical name,
else append (Python dict assignment). -/
def setAttr : Attrs → String → String → Attrs
  | [], k, v => [(k, v)]
  | p :: rest, k, v =>
    if canonAttr p.1 = canonAttr k then (p.1, v) :: rest
    else p :: setAttr rest k v

/-- Raw-dict removal of a key (`if k in d: d.pop(k, None)`): an exact string
match on the stored keys, with no name resolution. -/
def popAttrExact : Attrs → String → Attrs
  | [], _ => []
  | p :: rest, k =>
    if p.1 = k then popAttrExact rest k else p :: popAttrExact rest k

/-- All keys of a dictionary are stored in canonical (hyphen-stripped) form,
as the library does for loaded documents. -/
def canonKeys (a : Attrs) : Prop := ∀ p ∈ a, canonAttr p.1 = p.1

/-! ## Document nodes -/

/-- An ODF document node: a text node carrying character data, or an element
with a tag, an attribute dictionary and an ordered child list. -/
inductive Node where
  | text (data : String)
  | elem (tag : String) (attrs : Attrs) (children : List Node)

mutual

/-- Decidable equality of nodes. -/
def nodeDecEq : (a b : Node) → Decidable (a = b)
  | .text d, .text e =>
    if h : d = e then isTrue (by rw [h]) else isFalse (fun hh => h (by injection hh))
  | .text _, .elem _ _ _ => isFalse (fun hh => Node.noConfusion hh)
  | .elem _ _ _, .text _ => isFalse (fun hh => Node.noConfusion hh)
  | .elem t a c, .elem t2 a2 c2 =>
    if h1 : t = t2 then
      if h2 : a = a2 then
        match nodeListDecEq c c2 with
        | isTrue h3 => isTrue (by rw [h1, h2, h3])
        | isFalse h3 => isFalse (fun hh => h3 (by injection hh))
      else isFalse (fun hh => h2 (by injection hh))
    else isFalse (fun hh => h1 (by injection hh))

/-- Decidable equality of node lists. -/
def nodeListDecEq : (l1 l2 : List Node) → Decidable (l1 = l2)
  | [], [] => isTrue rfl
  | [], _ :: _ => isFalse (fun hh => List.noConfusion hh)
  | _ :: _, [] => isFalse (fun hh => List.noConfusion hh)
  | x :: xs, y :: ys =>
    match nodeDecEq x y, nodeListDecEq xs ys with
    | isTrue h1, isTrue h2 => isTrue (by rw [h1, h2])
    | isFalse h1, _ => isFalse (fun hh => h1 (by injection hh))
    | _, isFalse h2 => isFalse (fun hh => h2 (by injection hh))

end

instance : DecidableEq Node := nodeDecEq

/-- `getattr(node, "tagName", None)`: elements have a tag, text nodes do not. -/
def tagName? : Node → Option String
  | .text _ => none
  | .elem t _ _ => some t

/-- The attribute dictionary of a node (empty for text nodes). -/
def nodeAttrs : Node → Attrs
  | .text _ => []
  | .elem _ a _ => a

/-- The child list of a node (empty for text nodes). -/
def nodeChildren : Node → List Node
  | .text _ => []
  | .elem _ _ c => c

/-- Whether the node is an element. -/
def nodeIsElem : Node → Bool
  | .text _ => false
  | .elem _ _ _ => true

/-- `node.setAttribute(k, v)`: update the attribute dictionary of an element. -/
def setNodeAttr : Node → String → String → Node
  | .text d, _, _ => .text d
  | .elem t a c, k, v => .elem t (setAttr a k v) c

/-- `node.getAttribute(k)`. -/
def getNodeAttr (n : Node) (k : String) : Option String :=
  getAttr (nodeAttrs n) k

/-! ## Python string and number primitives (external, modelled) -/

/-- The decimal digit character for `d < 10`. -/
def digitChar (d : Nat) : Char := Char.ofNat (48 + d)

/-- The decimal digit list of a natural number, with a fuel bound on the
number of divisions (adequate whenever the number is at most the fuel). -/
def natDigitsAux : Nat → Nat → List Char
  | 0, n => [digitChar n]
  | fuel + 1, n =>
    if n < 10 then [digitChar n]
    else natDigitsAux fuel (n / 10) ++ [digitChar (n % 10)]

/-- The decimal digit list of a natural number (most significant first). -/
def natDigits (n : Nat) : List Char := natDigitsAux n n

/-- Python `str(n)` for a natural number. -/
def natToString (n : Nat) : String := ⟨natDigits n⟩

/-- The value of a digit list read most significant first. -/
def digitsVal (l : List Char) : Nat :=
  l.foldl (fun a c => a * 10 + (c.toNat - 48)) 0

/-- Python `int(s)` restricted to plain digit strings (the only shape the
script feeds it from well-formed repeat-count attributes). -/
def strToNat? (s : String) : Option Nat :=
  if s.data ≠ [] ∧ s.data.all Char.isDigit then some (digitsVal s.data)
  else none

/-- Python `value.replace(c, "")` for a one-character pattern: remove every
occurrence of the character. -/
def pyReplaceChar (s : String) (c : Char) : String :=
  ⟨s.data.filter (fun x => x ≠ c)⟩

/-- Python `value.strip()`: drop whitespace from both ends. -/
def pyStrip (s : String) : String :=
  ⟨((s.data.dropWhile Char.isWhitespace).reverse.dropWhile Char.isWhitespace).reverse⟩

/-- Python `",".join parts`. -/
def joinComma : List String → String
  | [] => ""
  | [x] => x
  | x :: y :: rest => x ++ "," ++ joinComma (y :: rest)

/-! ## Node cloning (clone_node, lines 141-153)

A deep copy: a text node is rebuilt from its character data, an element is
rebuilt from its qname, a copy of its attribute dictionary and recursively
cloned children.  In the value world this is the identity on the tree. -/

mutual

/-- clone_node (source lines 141-153). -/
def clone_node : Node → Node
  | .text d => .text d
  | .elem t a c => .elem t a (clone_node_list c)

/-- The child-list loop of clone_node: clone each child in order. -/
def clone_node_list : List Node → List Node
  | [] => []
  | x :: xs => clone_node x :: clone_node_list xs

end

/-! ## Grid addressing (lines 51-138)

The table (or row) is represented by its child list; `iter_table_rows` and
`iter_cells` filter that list by tag.  `insertBefore`/`removeChild` splice the
child list in place; the pure embedding returns the updated child list
together with the returned node. -/

/-- `iter_table_rows` membership test: the node is a table row. -/
def isRowTag (n : Node) : Bool := tagName? n = some "table:table-row"

/-- `iter_cells` membership test: the node is a cell or covered cell. -/
def isCellTag (n : Node) : Bool :=
  tagName? n = some "table:table-cell" ∨ tagName? n = some "table:covered-table-cell"

/-- Shared body of row_repeat_count / cell_repeat_count: a missing or empty
attribute counts as 1, otherwise the numeral is converted with int(). -/
def repeatAttrCount (repAttr : String) (n : Node) : Nat :=
  match getNodeAttr n repAttr with
  | none => 1
  | some s => if s = "" then 1 else (strToNat? s).getD 0

/-- row_repeat_count (source lines 57-59). -/
def row_repeat_count : Node → Nat := repeatAttrCount "numberrowsrepeated"

/-- cell_repeat_count (source lines 107-109). -/
def cell_repeat_count : Node → Nat := repeatAttrCount "numbercolumnsrepeated"

/-- Shared body of ensure_physical_row and ensure_cell (the source duplicates
the walk verbatim for rows over "numberrowsrepeated" and for cells over
"numbercolumnsrepeated").  Walk the child list accumulating the logical start
`current` of each run; inside the run containing `index` either return the run
(repeat 1) or replace it with the before/target/after split and return the
target.  `none` models the Python `return None` (child list unchanged). -/
def ensureRunAux (isRun : Node → Bool) (repAttr : String) (index : Nat) :
    Nat → List Node → Option (List Node × Node)
  | _, [] => none
  | current, c :: rest =>
    if isRun c then
      let rep := repeatAttrCount repAttr c
      if current ≤ index ∧ index ≤ current + rep - 1 then
        if rep = 1 then some (c :: rest, c)
        else
          let offset := index - current
          let target := setNodeAttr (clone_node c) repAttr "1"
          let beforeRuns :=
            if offset > 0 then [setNodeAttr (clone_node c) repAttr (natToString offset)]
            else []
          let remaining := rep - offset - 1
          let afterRuns :=
            if remaining > 0 then [setNodeAttr (clone_node c) repAttr (natToString remaining)]
            else []
          some (beforeRuns ++ target :: (afterRuns ++ rest), target)
      else
        (ensureRunAux isRun repAttr index (current + rep) rest).map
          (fun r => (c :: r.1, r.2))
    else
      (ensureRunAux isRun repAttr index current rest).map
        (fun r => (c :: r.1, r.2))

/-- ensure_physical_row (source lines 62-88), on the table child list. -/
def ensure_physical_row (children : List Node) (index : Nat) :
    Option (List Node × Node) :=
  ensureRunAux isRowTag "numberrowsrepeated" index 1 children

/-- ensure_cell (source lines 112-138), on the row child list. -/
def ensure_cell (children : List Node) (colIndex : Nat) :
    Option (List Node × Node) :=
  ensureRunAux isCellTag "numbercolumnsrepeated" colIndex 1 children

/-- Shared body of the read-only lookup: return the run whose logical interval
contains `index`, without splitting. -/
def findRunAux (isRun : Node → Bool) (repAttr : String) (index : Nat) :
    Nat → List Node → Option Node
  | _, [] => none
  | current, c :: rest =>
    if isRun c then
      let rep := repeatAttrCount repAttr c
      if current ≤ index ∧ index ≤ current + rep - 1 then some c
      else findRunAux isRun repAttr index (current + rep) rest
    else findRunAux isRun repAttr index current rest

/-- find_row_at_index (source lines 91-98), on the table child list. -/
def find_row_at_index (children : List Node) (index : Nat) : Option Node :=
  findRunAux isRowTag "numberrowsrepeated" index 1 children

/-- Observation: the total logical count of a run sequence, the sum of the
repeat counts of the runs among the children. -/
def logicalRunTotal (isRun : Node → Bool) (repAttr : String)
    (children : List Node) : Nat :=
  ((children.filter isRun).map (repeatAttrCount repAttr)).sum

/-- Observation: total logical row count of a table child list. -/
def logical_row_total : List Node → Nat :=
  logicalRunTotal isRowTag "numberrowsrepeated"

/-- Observation: total logical column count of a row child list. -/
def logical_col_total : List Node → Nat :=
  logicalRunTotal isCellTag "numbercolumnsrepeated"

/-! ## Cell content editor (lines 156-171) -/

/-- clear_cell_content (source lines 156-163): drop all children, then pop
the exact names "value", "value-type" and "date-value" from the raw attribute
dictionary.  The stored keys are hyphen-stripped, so only the "value" pop can
ever match: the two hyphenated pops are dead and the value-type / date-value
attributes survive a clear (see clear_cell_content_retains_value_attrs).
(The `cell is None` guard returns the argument untouched; a text node has
nothing to clear.) -/
def clear_cell_content : Node → Node
  | .text d => .text d
  | .elem t a _ =>
    .elem t (popAttrExact (popAttrExact (popAttrExact a "value") "value-type")
      "date-value") []

/-- The text paragraph element `P(text=...)` of the document library. -/
def P (text : String) : Node := .elem "text:p" [] [.text text]

/-- set_cell_text (source lines 166-171): clear, and for non-empty text mark
the cell string-typed and append one paragraph child. -/
def set_cell_text (cell : Node) (text : String) : Node :=
  let c := clear_cell_content cell
  if text = "" then c
  else
    match setNodeAttr c "valuetype" "string" with
    | .text d => .text d
    | .elem t a ch => .elem t a (ch ++ [P text])

/-- Observation: an empty cell, with no children and no value-bearing
attributes visible through the API (the state the spec requires a cleared
cell to reach). -/
def isEmptyCell (n : Node) : Bool :=
  (nodeChildren n).isEmpty
    && (getAttr (nodeAttrs n) "value").isNone
    && (getAttr (nodeAttrs n) "value-type").isNone
    && (getAttr (nodeAttrs n) "date-value").isNone

/-! ## Decimal values (external, modelled)

`decimal.Decimal` as used by the script: an exact scaled integer
`mant / 10 ^ scale`.  Parsing keeps the fractional digit count as the scale,
addition and subtraction align to the larger scale, comparison is numeric,
rendering is positional with `scale` fractional digits. -/

/-- A decimal value: `mant / 10 ^ scale`. -/
structure Dec where
  mant : Int
  scale : Nat
deriving DecidableEq

/-- The rational value of a decimal. -/
def Dec.val (d : Dec) : ℚ := (d.mant : ℚ) / (10 : ℚ) ^ d.scale

/-- Decimal addition (exact, result scale the max of the operand scales). -/
def Dec.add (a b : Dec) : Dec :=
  ⟨a.mant * (10 : Int) ^ (max a.scale b.scale - a.scale)
     + b.mant * (10 : Int) ^ (max a.scale b.scale - b.scale),
   max a.scale b.scale⟩

/-- Decimal subtraction (exact, result scale the max of the operand scales). -/
def Dec.sub (a b : Dec) : Dec :=
  ⟨a.mant * (10 : Int) ^ (max a.scale b.scale - a.scale)
     - b.mant * (10 : Int) ^ (max a.scale b.scale - b.scale),
   max a.scale b.scale⟩

/-- Positional rendering of a decimal, `str(Decimal(...))` on the values the
script produces: optional sign, integer digits, and `scale` fractional digits
when the scale is positive. -/
def Dec.render (d : Dec) : String :=
  let sign : List Char := if d.mant < 0 then ['-'] else []
  let digits := natDigits d.mant.natAbs
  if d.scale = 0 then ⟨sign ++ digits⟩
  else
    let padded := List.replicate (d.scale + 1 - digits.length) '0' ++ digits
    ⟨sign ++ padded.take (padded.length - d.scale)
      ++ '.' :: padded.drop (padded.length - d.scale)⟩

/-- Parse an unsigned decimal numeral: integer digits, optionally a point and
fraction digits, at least one digit in all. -/
def parseUnsignedDec? (cs : List Char) : Option Dec :=
  let ip := cs.takeWhile Char.isDigit
  match cs.dropWhile Char.isDigit with
  | [] => if ip = [] then none else some ⟨digitsVal ip, 0⟩
  | '.' :: fp =>
    if fp.all Char.isDigit ∧ ¬(ip = [] ∧ fp = []) then
      some ⟨(digitsVal ip : Int) * (10 : Int) ^ fp.length + (digitsVal fp : Int),
            fp.length⟩
    else none
  | _ => none

/-- `Decimal(cleaned)`: an optional sign followed by an unsigned numeral;
`none` models the InvalidOperation raised on any other text. -/
def parseDec? (s : String) : Option Dec :=
  match s.data with
  | '+' :: rest => parseUnsignedDec? rest
  | '-' :: rest => (parseUnsignedDec? rest).map (fun d => ⟨-d.mant, d.scale⟩)
  | cs => parseUnsignedDec? cs

/-! ## Records, normalisation, logging (lines 15-21, 174-209) -/

/-- A CSV record: a partial map from column name to field text.  `record.get`
with default "" and a None field value both reach the script only through the
normalisers below, which send both to "". -/
abbrev Record := String → Option String

/-- BASE_FIELDS (source lines 15-21). -/
def BASE_FIELDS : List String :=
  ["Serial No", "Order No", "Order Date", "Customer Name", "Grand Total"]

/-- normalize_text (source lines 174-175). -/
def normalize_text : Option String → String
  | none => ""
  | some v => pyStrip v

/-- normalize_number_text (source lines 178-182): drop commas and dollar
signs, then strip. -/
def normalize_number_text : Option String → String
  | none => ""
  | some v => pyStrip (pyReplaceChar (pyReplaceChar v ',') '$')

/-- format_log_entry (source lines 203-209): `Reason=<kind>` followed by the
base identity fields and the extra key/value pairs, comma-joined. -/
def format_log_entry (reason : String) (record : Record)
    (extra : List (String × String)) : String :=
  joinComma
    (("Reason=" ++ reason)
      :: (BASE_FIELDS.map (fun k => k ++ "=" ++ (record k).getD ""))
      ++ extra.map (fun p => p.1 ++ "=" ++ p.2))

/-- parse_decimal (source lines 185-200): empty cleaned text is silently zero;
unparsable text appends one PARSE_ERROR entry and is zero; otherwise the
parsed value.  The log list is threaded explicitly. -/
def parse_decimal (value : Option String) (record : Record) (field : String)
    (logs : List String) : Dec × List String :=
  let cleaned := normalize_number_text value
  if cleaned = "" then (⟨0, 0⟩, logs)
  else
    match parseDec? cleaned with
    | some d => (d, logs)
    | none =>
      (⟨0, 0⟩,
       logs ++ [format_log_entry "PARSE_ERROR" record
          [("Field", field), ("Value", (value).getD "")]])

/-- An entry of the reconciliation log carries the given reason tag, that is,
starts with `Reason=<tag>,`. -/
def isEntryTag (tag : String) (e : String) : Bool :=
  List.isPrefixOf ("Reason=" ++ tag ++ ",").data e.data

/-- Number of log entries carrying the given reason tag. -/
def countTag (tag : String) (logs : List String) : Nat :=
  logs.countP (fun e => isEntryTag tag e)

/-! ## The record loop (lines 246-344), per-record fragments -/

/-- The column field name `Product {index} {suffix}`. -/
def productField (index : Nat) (suffix : String) : String :=
  "Product " ++ natToString index ++ " " ++ suffix

/-- The accumulation of the 16 line-item totals (source lines 288-297,
projected to the sum and the log): fold parse_decimal of the raw
`Product {i} Total` field over i = 1..16. -/
def line_items_sum (record : Record) (logs : List String) :
    Dec × List String :=
  (List.range' 1 16).foldl
    (fun acc index =>
      let r := parse_decimal (record (productField index "Total")) record
        (productField index "Total") acc.2
      (Dec.add acc.1 r.1, r.2))
    (⟨0, 0⟩, logs)

/-- The grand-total parse that follows the line-item loop (source lines
306-307). -/
def grand_total_step (record : Record) (logs : List String) :
    Dec × List String :=
  parse_decimal (record "Grand Total") record "Grand Total"
    (line_items_sum record logs).2

/-- The totals-reconciliation step of the record loop (source lines 288-321):
accumulate the line-item totals, parse the grand total, and append one
TOTAL_MISMATCH entry carrying the sum and the signed difference
(grand total minus sum) exactly when the two differ numerically.  Decimal
inequality is numeric; on scaled integers that is the cross-multiplied
comparison (equivalent to equality of the rational values, Dec.val_eq_iff). -/
def process_record_totals (record : Record) (logs : List String) :
    List String :=
  let s := line_items_sum record logs
  let g := parse_decimal (record "Grand Total") record "Grand Total" s.2
  if s.1.mant * (10 : Int) ^ g.1.scale ≠ g.1.mant * (10 : Int) ^ s.1.scale then
    g.2 ++ [format_log_entry "TOTAL_MISMATCH" record
      [("Sum(Product Totals)", Dec.render s.1),
       ("Diff", Dec.render (Dec.sub g.1 s.1))]]
  else g.2

/-- The overflow scan (source lines 323-336): some field of line items 17-25
is non-empty after trimming.  (The break-out-of-both-loops flag of the source
is the existential over the same fields in the same order.) -/
def has_products_17_25 (record : Record) : Bool :=
  (List.range' 17 9).any fun index =>
    (["Name", "SKU", "Quantity", "Price", "Total"].any fun su =>
      normalize_text (record (productField index su)) != "")

/-- The overflow log step (source lines 338-339). -/
def overflow_log (record : Record) (logs : List String) : List String :=
  if has_products_17_25 record then
    logs ++ [format_log_entry "HAS_PRODUCT_17_25" record []]
  else logs

/-- A field consulted only by the overflow scan: `Product {i} ...` for
i = 17..25. -/
def isOverflowField (f : String) : Bool :=
  (List.range' 17 9).any fun index =>
    (["Name", "SKU", "Quantity", "Price", "Total"].any fun su =>
      f == productField index su)

/-- The record with the overflow-only fields replaced from `g` and every
other field taken from `r`. -/
def overrideOverflow (r g : Record) : Record :=
  fun f => if isOverflowField f then g f else r f

/-- COLUMN_LETTER_MAP (source lines 40-48). -/
def COLUMN_LETTER_MAP : List (String × Nat) :=
  [("C", 3), ("D", 4), ("F", 6), ("L", 12), ("N", 14), ("O", 15), ("R", 18)]

/-- Lookup in COLUMN_LETTER_MAP. -/
def colOf (letter : String) : Nat :=
  ((COLUMN_LETTER_MAP.find? (fun p => p.1 == letter)).map (fun p => p.2)).getD 0

/-- The record-dependent cell writes of one record block (source lines
274-308), as the list of (block row list index, column, text) passed to
set_cell_text: the five header fields, the five columns of line items 1..16,
and the dollar-prefixed grand total. -/
def block_writes (record : Record) : List (Nat × Nat × String) :=
  let order_date0 := normalize_text (record "Order Date")
  let order_date :=
    if order_date0 = "" then order_date0 else (order_date0.splitOn " ").headD ""
  let customer_name := normalize_text (record "Customer Name")
  let serial_no := normalize_text (record "Serial No")
  let order_no := normalize_text (record "Order No")
  let customer_phone := normalize_text (record "Customer Phone")
  [(4, colOf "D", order_date), (5, colOf "D", customer_name),
   (5, colOf "N", serial_no), (4, colOf "R", order_no),
   (6, colOf "R", customer_phone)]
  ++ (List.range' 1 16).flatMap (fun index =>
      let sku := normalize_text (record (productField index "SKU"))
      let name := normalize_text (record (productField index "Name"))
      let quantity := normalize_number_text (record (productField index "Quantity"))
      let price := normalize_number_text (record (productField index "Price"))
      let total_value := normalize_number_text (record (productField index "Total"))
      let row_index := 12 + index
      [(row_index - 1, colOf "C", sku), (row_index - 1, colOf "F", name),
       (row_index - 1, colOf "L", quantity), (row_index - 1, colOf "N", price),
       (row_index - 1, colOf "O", total_value)])
  ++ [(28, colOf "O",
        "$" ++ Dec.render (parse_decimal (record "Grand Total") record
          "Grand Total" []).1)]

/-- apply_page_break (source lines 212-217): copy the saved attributes onto
the target row, skipping the repeat-count attribute. -/
def apply_page_break (target_row : Node) (break_attrs : Attrs) : Node :=
  break_attrs.foldl
    (fun row kv =>
      if kv.1 = "numberrowsrepeated" then row else setNodeAttr row kv.1 kv.2)
    target_row

/-- The print-range step after the record loop (source lines 341-344): for a
positive record count set the print-ranges attribute of the PRINT_ALL sheet to
rows 1 through records * 31; for zero records the sheet is untouched. -/
def set_print_range (print_all : Node) (total_records : Nat) : Node :=
  if total_records > 0 then
    setNodeAttr print_all "print-ranges"
      ("\x27PRINT_ALL\x27.A1:\x27PRINT_ALL\x27.R" ++ natToString (total_records * 31))
  else print_all

/-! ## Object identity: heap model for clone independence

The Python nodes are mutable objects; `clone_node` matters precisely because
mutating a shared object would be visible through every reference.  To state
clone independence we re-run `clone_node` and `clear_cell_content` against a
store of node objects addressed by identity.  `readTreeH` is the denotation of
an object as a pure `Node` tree, with a fuel bound on the recursion depth
(success at any fuel determines the value). -/

/-- A stored node object: element tag (none for a text node), character data,
attribute dictionary, and the identities of the children. -/
structure HNode where
  tag : Option String
  data : String
  attrs : Attrs
  children : List Nat
deriving DecidableEq

/-- A store of node objects; the identity of an object is its index. -/
abbrev Store := List HNode

/-- Every stored child identity points into the store. -/
def wfClosed (s : Store) : Prop :=
  ∀ n ∈ s, ∀ c ∈ n.children, c < s.length

/-- Denotation of a list of object identities as pure trees, with fuel. -/
def readChildrenH : Nat → Store → List Nat → Option (List Node)
  | _, _, [] => some []
  | 0, _, _ :: _ => none
  | fuel + 1, s, id :: rest =>
    match s[id]? with
    | none => none
    | some n =>
      match
        (match n.tag with
         | none => some (Node.text n.data)
         | some tg => (readChildrenH fuel s n.children).map (Node.elem tg n.attrs)) with
      | none => none
      | some node => (readChildrenH fuel s rest).map (fun ts => node :: ts)

/-- Denotation of one object identity as a pure tree. -/
def readTreeH (fuel : Nat) (s : Store) (id : Nat) : Option Node :=
  match readChildrenH fuel s [id] with
  | some [t] => some t
  | _ => none

/-- clone_node against the store, over a list of identities: clone each
object in order, allocating the copies at fresh identities (a text node is
rebuilt from its data, an element from its tag, a copy of its attribute
dictionary, and recursively cloned children).  Returns the grown store and
the identities of the copies. -/
def cloneChildrenH : Nat → Store → List Nat → Option (Store × List Nat)
  | _, s, [] => some (s, [])
  | 0, _, _ :: _ => none
  | fuel + 1, s, id :: rest =>
    match s[id]? with
    | none => none
    | some n =>
      match
        ((match n.tag with
          | none => some (s ++ [⟨none, n.data, [], []⟩], s.length)
          | some tg =>
            (cloneChildrenH fuel s n.children).map
              (fun r => (r.1 ++ [⟨some tg, "", n.attrs, r.2⟩], r.1.length))) :
          Option (Store × Nat)) with
      | none => none
      | some (s1, newId) =>
        (cloneChildrenH fuel s1 rest).map
          (fun r : Store × List Nat => (r.1, newId :: r.2))

/-- clone_node of one object: the grown store and the copy's identity. -/
def cloneNodeH (fuel : Nat) (s : Store) (id : Nat) : Option (Store × Nat) :=
  match cloneChildrenH fuel s [id] with
  | some (s1, [b]) => some (s1, b)
  | _ => none

/-- clear_cell_content against the store: mutate the object in place,
dropping its children and popping the exact attribute names, as the raw-dict
pops of the source do. -/
def clearCellContentH (s : Store) (id : Nat) : Store :=
  match s[id]? with
  | none => s
  | some n =>
    s.set id
      { n with
        children := [],
        attrs := popAttrExact (popAttrExact (popAttrExact n.attrs "value")
          "value-type") "date-value" }

/-! ## Lemmas: attribute dictionaries -/

theorem getAttr_setAttr_of_canon_eq (a : Attrs) (k k2 v : String)
    (h : canonAttr k2 = canonAttr k) :
    getAttr (setAttr a k v) k2 = some v := by
  induction a with
  | nil =>
    simp only [setAttr, getAttr]
    rw [if_pos h.symm]
  | cons p rest ih =>
    simp only [setAttr]
    by_cases hp : canonAttr p.1 = canonAttr k
    · rw [if_pos hp]
      simp only [getAttr]
      rw [if_pos (hp.trans h.symm)]
    · rw [if_neg hp]
      simp only [getAttr]
      rw [if_neg (fun hc => hp (hc.trans h)), ih]

theorem getAttr_setAttr_self (a : Attrs) (k v : String) :
    getAttr (setAttr a k v) k = some v :=
  getAttr_setAttr_of_canon_eq a k k v rfl

theorem getAttr_setAttr_of_canon_ne (a : Attrs) (k k2 v : String)
    (h : canonAttr k2 ≠ canonAttr k) :
    getAttr (setAttr a k v) k2 = getAttr a k2 := by
  induction a with
  | nil =>
    simp only [setAttr, getAttr]
    rw [if_neg (fun hc => h hc.symm)]
  | cons p rest ih =>
    simp only [setAttr]
    by_cases hp : canonAttr p.1 = canonAttr k
    · rw [if_pos hp]
      simp only [getAttr]
      rw [if_neg (fun hc => h (hc.symm.trans hp)),
          if_neg (fun hc => h (hc.symm.trans hp))]
    · rw [if_neg hp]
      simp only [getAttr]
      by_cases hp2 : canonAttr p.1 = canonAttr k2
      · rw [if_pos hp2, if_pos hp2]
      · rw [if_neg hp2, if_neg hp2, ih]

/-! ## Lemmas: numerals -/

theorem digitChar_isDigit (d : Nat) (h : d < 10) : (digitChar d).isDigit = true := by
  interval_cases d <;> decide

theorem digitChar_toNat (d : Nat) (h : d < 10) : (digitChar d).toNat = 48 + d := by
  interval_cases d <;> decide

theorem natDigitsAux_ne_nil (fuel n : Nat) : natDigitsAux fuel n ≠ [] := by
  cases fuel with
  | zero => simp [natDigitsAux]
  | succ fuel =>
    simp only [natDigitsAux]
    split <;> simp

theorem natDigits_ne_nil (n : Nat) : natDigits n ≠ [] :=
  natDigitsAux_ne_nil n n

theorem natDigitsAux_all_digits (fuel : Nat) :
    ∀ n, n ≤ fuel → (natDigitsAux fuel n).all Char.isDigit = true := by
  induction fuel with
  | zero =>
    intro n hn
    have : n = 0 := by omega
    subst this
    simp [natDigitsAux, digitChar_isDigit 0 (by omega)]
  | succ fuel ih =>
    intro n hn
    simp only [natDigitsAux]
    split
    · rename_i h
      simp [digitChar_isDigit n h]
    · rename_i h
      simp only [List.all_append]
      rw [ih (n / 10) (by omega)]
      simp [digitChar_isDigit (n % 10) (Nat.mod_lt _ (by omega))]

theorem natDigits_all_digits (n : Nat) : (natDigits n).all Char.isDigit = true :=
  natDigitsAux_all_digits n n (Nat.le_refl n)

theorem digitsVal_append_singleton (l : List Char) (c : Char) :
    digitsVal (l ++ [c]) = digitsVal l * 10 + (c.toNat - 48) := by
  simp [digitsVal, List.foldl_append]

theorem digitsVal_natDigitsAux (fuel : Nat) :
    ∀ n, n ≤ fuel → digitsVal (natDigitsAux fuel n) = n := by
  induction fuel with
  | zero =>
    intro n hn
    have : n = 0 := by omega
    subst this
    simp [natDigitsAux, digitsVal, digitChar_toNat 0 (by omega)]
  | succ fuel ih =>
    intro n hn
    simp only [natDigitsAux]
    split
    · rename_i h
      simp [digitsVal, digitChar_toNat n h]
    · rename_i h
      rw [digitsVal_append_singleton, ih (n / 10) (by omega),
          digitChar_toNat (n % 10) (Nat.mod_lt _ (by omega))]
      omega

theorem digitsVal_natDigits (n : Nat) : digitsVal (natDigits n) = n :=
  digitsVal_natDigitsAux n n (Nat.le_refl n)

theorem strToNat?_natToString (n : Nat) : strToNat? (natToString n) = some n := by
  have h1 := natDigits_ne_nil n
  have h2 := natDigits_all_digits n
  simp only [strToNat?, natToString]
  rw [if_pos ⟨h1, h2⟩, digitsVal_natDigits]

theorem natToString_ne_empty (n : Nat) : natToString n ≠ "" := by
  intro h
  exact natDigits_ne_nil n (congrArg String.data h)

/-! ## Lemmas: nodes and repeat counts -/

theorem tagName?_setNodeAttr (n : Node) (k v : String) :
    tagName? (setNodeAttr n k v) = tagName? n := by
  cases n <;> rfl

theorem tagName?_clone_node (n : Node) : tagName? (clone_node n) = tagName? n := by
  cases n <;> rfl

theorem isRowTag_setNodeAttr (n : Node) (k v : String) :
    isRowTag (setNodeAttr n k v) = isRowTag n := by
  simp [isRowTag, tagName?_setNodeAttr]

theorem isRowTag_clone_node (n : Node) : isRowTag (clone_node n) = isRowTag n := by
  simp [isRowTag, tagName?_clone_node]

theorem isCellTag_setNodeAttr (n : Node) (k v : String) :
    isCellTag (setNodeAttr n k v) = isCellTag n := by
  simp [isCellTag, tagName?_setNodeAttr]

theorem isCellTag_clone_node (n : Node) : isCellTag (clone_node n) = isCellTag n := by
  simp [isCellTag, tagName?_clone_node]

theorem repeatAttrCount_set_clone_natToString (repAttr : String) (t : String)
    (a : Attrs) (c : List Node) (m : Nat) :
    repeatAttrCount repAttr
      (setNodeAttr (clone_node (.elem t a c)) repAttr (natToString m)) = m := by
  simp only [clone_node, setNodeAttr, repeatAttrCount, getNodeAttr, nodeAttrs]
  rw [getAttr_setAttr_self]
  simp [natToString_ne_empty m, strToNat?_natToString]

theorem repeatAttrCount_set_clone_one (repAttr : String) (t : String)
    (a : Attrs) (c : List Node) :
    repeatAttrCount repAttr (setNodeAttr (clone_node (.elem t a c)) repAttr "1") = 1 := by
  simp only [clone_node, setNodeAttr, repeatAttrCount, getNodeAttr, nodeAttrs]
  rw [getAttr_setAttr_self]
  simp [strToNat?, digitsVal]

theorem logicalRunTotal_cons (isRun : Node → Bool) (repAttr : String)
    (x : Node) (l : List Node) :
    logicalRunTotal isRun repAttr (x :: l) =
      (if isRun x then repeatAttrCount repAttr x else 0)
        + logicalRunTotal isRun repAttr l := by
  by_cases h : isRun x
  · simp [logicalRunTotal, List.filter_cons, h]
  · simp [logicalRunTotal, List.filter_cons, h]

theorem logicalRunTotal_append (isRun : Node → Bool) (repAttr : String)
    (l1 l2 : List Node) :
    logicalRunTotal isRun repAttr (l1 ++ l2) =
      logicalRunTotal isRun repAttr l1 + logicalRunTotal isRun repAttr l2 := by
  simp [logicalRunTotal, List.filter_append]

theorem ensureRunAux_spec (isRun : Node → Bool) (repAttr : String)
    (helem : ∀ n, isRun n = true → nodeIsElem n = true)
    (hset : ∀ n k v, isRun (setNodeAttr n k v) = isRun n)
    (hcl : ∀ n, isRun (clone_node n) = isRun n) :
    ∀ (children : List Node) (current index : Nat) (l : List Node) (t : Node),
      (∀ c ∈ children, isRun c = true → 1 ≤ repeatAttrCount repAttr c) →
      ensureRunAux isRun repAttr index current children = some (l, t) →
      isRun t = true ∧ repeatAttrCount repAttr t = 1 ∧
        logicalRunTotal isRun repAttr l = logicalRunTotal isRun repAttr children ∧
        findRunAux isRun repAttr index current l = some t := by
  intro children
  induction children with
  | nil =>
    intro current index l t _ h
    simp [ensureRunAux] at h
  | cons c rest ih =>
    intro current index l t hwf h
    have hwfrest : ∀ x ∈ rest, isRun x = true → 1 ≤ repeatAttrCount repAttr x :=
      fun x hx => hwf x (List.mem_cons_of_mem c hx)
    by_cases hr : isRun c = true
    · have hrep1 : 1 ≤ repeatAttrCount repAttr c := hwf c (List.mem_cons_self c rest) hr
      by_cases hc : current ≤ index ∧ index ≤ current + repeatAttrCount repAttr c - 1
      · by_cases h1 : repeatAttrCount repAttr c = 1
        · simp only [ensureRunAux] at h
          rw [if_pos hr, if_pos hc, if_pos h1] at h
          simp only [Option.some.injEq, Prod.mk.injEq] at h
          obtain ⟨rfl, rfl⟩ := h
          refine ⟨hr, h1, rfl, ?_⟩
          simp only [findRunAux]
          rw [if_pos hr, if_pos hc]
        · -- split the run
          simp only [ensureRunAux] at h
          rw [if_pos hr, if_pos hc, if_neg h1] at h
          simp only [Option.some.injEq, Prod.mk.injEq] at h
          obtain ⟨rfl, rfl⟩ := h
          obtain ⟨tg, a, ch, rfl⟩ : ∃ tg a ch, c = Node.elem tg a ch := by
            cases c with
            | text d => exact absurd (helem _ hr) (by simp [nodeIsElem])
            | elem tg a ch => exact ⟨tg, a, ch, rfl⟩
          have htagt : isRun (setNodeAttr (clone_node (Node.elem tg a ch)) repAttr "1") = true := by
            rw [hset, hcl]; exact hr
          have hrept :
              repeatAttrCount repAttr
                (setNodeAttr (clone_node (Node.elem tg a ch)) repAttr "1") = 1 :=
            repeatAttrCount_set_clone_one repAttr tg a ch
          have hb : isRun (setNodeAttr (clone_node (Node.elem tg a ch)) repAttr
              (natToString (index - current))) = true := by
            rw [hset, hcl]; exact hr
          have ha : isRun (setNodeAttr (clone_node (Node.elem tg a ch)) repAttr
              (natToString (repeatAttrCount repAttr (Node.elem tg a ch)
                - (index - current) - 1))) = true := by
            rw [hset, hcl]; exact hr
          refine ⟨htagt, hrept, ?_, ?_⟩
          · -- the repeat counts of the replacement runs sum to the original
            by_cases hoff : index - current > 0
            · by_cases hrem : repeatAttrCount repAttr (Node.elem tg a ch) - (index - current) - 1 > 0
              · rw [if_pos hoff, if_pos hrem]
                simp [logicalRunTotal_append, logicalRunTotal_cons, hb, ha, htagt, hr,
                      hrept, repeatAttrCount_set_clone_natToString]
                omega
              · rw [if_pos hoff, if_neg hrem]
                simp [logicalRunTotal_append, logicalRunTotal_cons, hb, htagt, hr,
                      hrept, repeatAttrCount_set_clone_natToString]
                omega
            · by_cases hrem : repeatAttrCount repAttr (Node.elem tg a ch) - (index - current) - 1 > 0
              · rw [if_neg hoff, if_pos hrem]
                simp [logicalRunTotal_append, logicalRunTotal_cons, ha, htagt, hr,
                      hrept, repeatAttrCount_set_clone_natToString]
                omega
              · rw [if_neg hoff, if_neg hrem]
                simp [logicalRunTotal_append, logicalRunTotal_cons, htagt, hr, hrept]
                omega
          · -- position index resolves to the target run
            by_cases hoff : index - current > 0
            · rw [if_pos hoff]
              simp only [List.singleton_append, List.cons_append, findRunAux]
              rw [if_pos hb, repeatAttrCount_set_clone_natToString]
              rw [if_neg (by omega : ¬(current ≤ index ∧ index ≤ current + (index - current) - 1))]
              rw [if_pos htagt, hrept]
              rw [if_pos (by omega : current + (index - current) ≤ index ∧
                    index ≤ current + (index - current) + 1 - 1)]
            · rw [if_neg hoff]
              simp only [List.nil_append, List.singleton_append, findRunAux]
              rw [if_pos htagt, hrept]
              rw [if_pos (by omega : current ≤ index ∧ index ≤ current + 1 - 1)]
      · -- run does not contain the index: recurse past it
        simp only [ensureRunAux] at h
        rw [if_pos hr, if_neg hc] at h
        obtain ⟨⟨l2, t2⟩, hrest, hf⟩ := Option.map_eq_some'.mp h
        simp only [Prod.mk.injEq] at hf
        obtain ⟨rfl, rfl⟩ := hf
        obtain ⟨ht, hrep, htot, hfind⟩ :=
          ih (current + repeatAttrCount repAttr c) index l2 t2 hwfrest hrest
        refine ⟨ht, hrep, ?_, ?_⟩
        · rw [logicalRunTotal_cons, logicalRunTotal_cons, htot]
        · simp only [findRunAux]
          rw [if_pos hr, if_neg hc]
          exact hfind
    · -- not a run node: skip it
      simp only [ensureRunAux] at h
      rw [if_neg hr] at h
      obtain ⟨⟨l2, t2⟩, hrest, hf⟩ := Option.map_eq_some'.mp h
      simp only [Prod.mk.injEq] at hf
      obtain ⟨rfl, rfl⟩ := hf
      obtain ⟨ht, hrep, htot, hfind⟩ := ih current index l2 t2 hwfrest hrest
      refine ⟨ht, hrep, ?_, ?_⟩
      · rw [logicalRunTotal_cons, logicalRunTotal_cons, htot]
      · simp only [findRunAux]
        rw [if_neg hr]
        exact hfind

/-- C1: for every run-length-compressed sequence of row (or cell) runs with
positive repeat counts and every 1-based logical index inside a run, the
mutating addressing operation (ensure_physical_row / ensure_cell) returns the
target run with repeat count 1 and a child list whose total logical row/column
count is unchanged, and on which the logical position resolves (by the
read-only lookup) to exactly the returned target run — the split replaces the
run by the before/target/after runs whose repeat counts sum to the original. -/
theorem grid_run_split_spec :
    (∀ (children : List Node) (index : Nat) (l : List Node) (t : Node),
        (∀ c ∈ children, isRowTag c = true → 1 ≤ row_repeat_count c) →
        ensure_physical_row children index = some (l, t) →
        isRowTag t = true ∧ row_repeat_count t = 1 ∧
          logical_row_total l = logical_row_total children ∧
          find_row_at_index l index = some t)
  ∧ (∀ (cells : List Node) (col : Nat) (l : List Node) (t : Node),
        (∀ c ∈ cells, isCellTag c = true → 1 ≤ cell_repeat_count c) →
        ensure_cell cells col = some (l, t) →
        isCellTag t = true ∧ cell_repeat_count t = 1 ∧
          logical_col_total l = logical_col_total cells ∧
          findRunAux isCellTag "numbercolumnsrepeated" col 1 l = some t) := by
  constructor
  · intro children index l t hwf h
    refine ensureRunAux_spec isRowTag "numberrowsrepeated" ?_ isRowTag_setNodeAttr
      isRowTag_clone_node children 1 index l t hwf h
    intro n hn
    cases n with
    | text d => simp [isRowTag, tagName?] at hn
    | elem tg a c => rfl
  · intro cells col l t hwf h
    refine ensureRunAux_spec isCellTag "numbercolumnsrepeated" ?_ isCellTag_setNodeAttr
      isCellTag_clone_node cells 1 col l t hwf h
    intro n hn
    cases n with
    | text d => simp [isCellTag, tagName?] at hn
    | elem tg a c => rfl

/-- Witness for C1: splitting a 5-row run at logical row 3 yields runs of
2, 1, 2 and row 3 resolves to the repeat-1 target; splitting a 4-column cell
run at column 2 yields runs of 1, 1, 2. -/
theorem grid_run_split_spec_witness :
    (isRowTag (Node.elem "table:table-row" [("numberrowsrepeated", "1")] []) = true
      ∧ row_repeat_count (Node.elem "table:table-row" [("numberrowsrepeated", "1")] []) = 1
      ∧ logical_row_total
          [Node.elem "table:table-row" [("numberrowsrepeated", "2")] [],
           Node.elem "table:table-row" [("numberrowsrepeated", "1")] [],
           Node.elem "table:table-row" [("numberrowsrepeated", "2")] []]
        = logical_row_total [Node.elem "table:table-row" [("numberrowsrepeated", "5")] []]
      ∧ find_row_at_index
          [Node.elem "table:table-row" [("numberrowsrepeated", "2")] [],
           Node.elem "table:table-row" [("numberrowsrepeated", "1")] [],
           Node.elem "table:table-row" [("numberrowsrepeated", "2")] []] 3
        = some (Node.elem "table:table-row" [("numberrowsrepeated", "1")] []))
  ∧ (isCellTag (Node.elem "table:table-cell" [("numbercolumnsrepeated", "1")] []) = true
      ∧ cell_repeat_count (Node.elem "table:table-cell" [("numbercolumnsrepeated", "1")] []) = 1
      ∧ logical_col_total
          [Node.elem "table:table-cell" [("numbercolumnsrepeated", "1")] [],
           Node.elem "table:table-cell" [("numbercolumnsrepeated", "1")] [],
           Node.elem "table:table-cell" [("numbercolumnsrepeated", "2")] []]
        = logical_col_total [Node.elem "table:table-cell" [("numbercolumnsrepeated", "4")] []]
      ∧ findRunAux isCellTag "numbercolumnsrepeated" 2 1
          [Node.elem "table:table-cell" [("numbercolumnsrepeated", "1")] [],
           Node.elem "table:table-cell" [("numbercolumnsrepeated", "1")] [],
           Node.elem "table:table-cell" [("numbercolumnsrepeated", "2")] []]
        = some (Node.elem "table:table-cell" [("numbercolumnsrepeated", "1")] [])) :=
  ⟨grid_run_split_spec.1
      [Node.elem "table:table-row" [("numberrowsrepeated", "5")] []] 3 _ _
      (by decide) (by decide),
   grid_run_split_spec.2
      [Node.elem "table:table-cell" [("numbercolumnsrepeated", "4")] []] 2 _ _
      (by decide) (by decide)⟩

/-! ## Claims about the cell content editor -/

theorem mem_popAttrExact {a : Attrs} {k : String} {p : String × String}
    (h : p ∈ popAttrExact a k) : p ∈ a ∧ p.1 ≠ k := by
  induction a with
  | nil => simp [popAttrExact] at h
  | cons q rest ih =>
    simp only [popAttrExact] at h
    by_cases hq : q.1 = k
    · rw [if_pos hq] at h
      obtain ⟨hm, hne⟩ := ih h
      exact ⟨List.mem_cons_of_mem q hm, hne⟩
    · rw [if_neg hq] at h
      rcases List.mem_cons.mp h with rfl | h
      · exact ⟨List.mem_cons_self _ _, hq⟩
      · obtain ⟨hm, hne⟩ := ih h
        exact ⟨List.mem_cons_of_mem q hm, hne⟩

theorem popAttrExact_of_not_mem (a : Attrs) (k : String)
    (h : ∀ p ∈ a, p.1 ≠ k) : popAttrExact a k = a := by
  induction a with
  | nil => rfl
  | cons q rest ih =>
    simp only [popAttrExact]
    rw [if_neg (h q (List.mem_cons_self q rest)),
        ih (fun p hp => h p (List.mem_cons_of_mem q hp))]

theorem mem_setAttr {a : Attrs} {k v : String} {p : String × String}
    (h : p ∈ setAttr a k v) : p.1 = k ∨ ∃ q ∈ a, p.1 = q.1 := by
  induction a with
  | nil =>
    simp only [setAttr, List.mem_singleton] at h
    subst h
    exact Or.inl rfl
  | cons q rest ih =>
    simp only [setAttr] at h
    by_cases hq : canonAttr q.1 = canonAttr k
    · rw [if_pos hq] at h
      rcases List.mem_cons.mp h with rfl | h
      · exact Or.inr ⟨q, List.mem_cons_self q rest, rfl⟩
      · exact Or.inr ⟨p, List.mem_cons_of_mem q h, rfl⟩
    · rw [if_neg hq] at h
      rcases List.mem_cons.mp h with rfl | h
      · exact Or.inr ⟨p, List.mem_cons_self p rest, rfl⟩
      · rcases ih h with h | ⟨r, hr, hpr⟩
        · exact Or.inl h
        · exact Or.inr ⟨r, List.mem_cons_of_mem q hr, hpr⟩

theorem setAttr_setAttr_self (a : Attrs) (k v : String) :
    setAttr (setAttr a k v) k v = setAttr a k v := by
  induction a with
  | nil => simp [setAttr]
  | cons q rest ih =>
    simp only [setAttr]
    by_cases hq : canonAttr q.1 = canonAttr k
    · rw [if_pos hq]
      simp only [setAttr]
      rw [if_pos hq]
    · rw [if_neg hq]
      simp only [setAttr]
      rw [if_neg hq, ih]

theorem getAttr_none_forall (a : Attrs) (k : String)
    (h : getAttr a k = none) : ∀ p ∈ a, canonAttr p.1 ≠ canonAttr k := by
  induction a with
  | nil => intro p hp; simp at hp
  | cons q rest ih =>
    intro p hp
    simp only [getAttr] at h
    by_cases hq : canonAttr q.1 = canonAttr k
    · rw [if_pos hq] at h
      exact absurd h (by simp)
    · rw [if_neg hq] at h
      rcases List.mem_cons.mp hp with rfl | hp
      · exact hq
      · exact ih h p hp

/-- No key surviving the three exact clear pops is one of the popped names. -/
theorem mem_cleared_keys (a : Attrs) :
    ∀ p ∈ popAttrExact (popAttrExact (popAttrExact a "value") "value-type")
        "date-value",
      p.1 ≠ "value" ∧ p.1 ≠ "value-type" ∧ p.1 ≠ "date-value" := by
  intro p hp
  obtain ⟨hp2, h3⟩ := mem_popAttrExact hp
  obtain ⟨hp1, h2⟩ := mem_popAttrExact hp2
  obtain ⟨_, h1⟩ := mem_popAttrExact hp1
  exact ⟨h1, h2, h3⟩

/-- Clearing twice pops nothing new. -/
theorem cleared_pops_idempotent (a : Attrs) :
    popAttrExact (popAttrExact (popAttrExact
        (popAttrExact (popAttrExact (popAttrExact a "value") "value-type")
          "date-value")
        "value") "value-type") "date-value"
      = popAttrExact (popAttrExact (popAttrExact a "value") "value-type")
          "date-value" := by
  rw [popAttrExact_of_not_mem _ _ (fun p hp => (mem_cleared_keys a p hp).1),
      popAttrExact_of_not_mem _ _ (fun p hp => (mem_cleared_keys a p hp).2.1),
      popAttrExact_of_not_mem _ _ (fun p hp => (mem_cleared_keys a p hp).2.2)]

/-- The cleared dictionary with the string marker set through the API is
untouched by a further clear: none of its keys is an exact popped name (the
marker is stored as "valuetype"). -/
theorem cleared_setAttr_pops_fixed (a : Attrs) :
    popAttrExact (popAttrExact (popAttrExact
        (setAttr (popAttrExact (popAttrExact (popAttrExact a "value")
            "value-type") "date-value") "valuetype" "string")
        "value") "value-type") "date-value"
      = setAttr (popAttrExact (popAttrExact (popAttrExact a "value")
          "value-type") "date-value") "valuetype" "string" := by
  have hkeys : ∀ p ∈ setAttr (popAttrExact (popAttrExact (popAttrExact a "value")
      "value-type") "date-value") "valuetype" "string",
      p.1 ≠ "value" ∧ p.1 ≠ "value-type" ∧ p.1 ≠ "date-value" := by
    intro p hp
    rcases mem_setAttr hp with h | ⟨q, hq, hpq⟩
    · rw [h]
      exact ⟨by decide, by decide, by decide⟩
    · rw [hpq]
      exact mem_cleared_keys a q hq
  rw [popAttrExact_of_not_mem _ _ (fun p hp => (hkeys p hp).1),
      popAttrExact_of_not_mem _ _ (fun p hp => (hkeys p hp).2.1),
      popAttrExact_of_not_mem _ _ (fun p hp => (hkeys p hp).2.2)]

/-- On a cell with no value-bearing attributes visible through the API, the
exact clear pops are no-ops. -/
theorem cleared_of_none (a : Attrs)
    (h1 : getAttr a "value" = none) (h2 : getAttr a "value-type" = none)
    (h3 : getAttr a "date-value" = none) :
    popAttrExact (popAttrExact (popAttrExact a "value") "value-type")
      "date-value" = a := by
  have k1 : ∀ p ∈ a, p.1 ≠ "value" := by
    intro p hp he
    exact getAttr_none_forall a "value" h1 p hp (by rw [he])
  have k2 : ∀ p ∈ a, p.1 ≠ "value-type" := by
    intro p hp he
    exact getAttr_none_forall a "value-type" h2 p hp (by rw [he])
  have k3 : ∀ p ∈ a, p.1 ≠ "date-value" := by
    intro p hp he
    exact getAttr_none_forall a "date-value" h3 p hp (by rw [he])
  rw [popAttrExact_of_not_mem a "value" k1,
      popAttrExact_of_not_mem a "value-type" k2,
      popAttrExact_of_not_mem a "date-value" k3]

/-- C3: the claim is right and the code is wrong.  clear_cell_content is
plainly written to strip the three value-bearing attributes (source lines
161-163), but it pops the raw attribute dictionary with the exact hyphenated
names "value-type" and "date-value", which never match the hyphen-stripped
keys the library stores — so those two pops are dead code.  Clearing a
populated date cell drops its children and its "value" attribute, yet the
cell still reports a value-type and a date-value through the attribute API
and is not an empty template cell, contradicting the claimed post-state. -/
theorem clear_cell_content_retains_value_attrs :
    clear_cell_content (Node.elem "table:table-cell"
        [("valuetype", "date"), ("datevalue", "2024-05-01"), ("value", "3")]
        [P "2024-05-01"])
      = Node.elem "table:table-cell"
          [("valuetype", "date"), ("datevalue", "2024-05-01")] []
    ∧ getNodeAttr (clear_cell_content (Node.elem "table:table-cell"
        [("valuetype", "date"), ("datevalue", "2024-05-01"), ("value", "3")]
        [P "2024-05-01"])) "value-type" = some "date"
    ∧ getNodeAttr (clear_cell_content (Node.elem "table:table-cell"
        [("valuetype", "date"), ("datevalue", "2024-05-01"), ("value", "3")]
        [P "2024-05-01"])) "date-value" = some "2024-05-01"
    ∧ isEmptyCell (clear_cell_content (Node.elem "table:table-cell"
        [("valuetype", "date"), ("datevalue", "2024-05-01"), ("value", "3")]
        [P "2024-05-01"])) = false := by
  decide

/-- C9: setting the empty text is exactly clear (no string value-type marker,
no content child); clear and set_cell_text are idempotent; and clearing an
already-empty cell is an observable no-op. -/
theorem set_cell_text_clear_idempotent_spec (tag : String) (attrs : Attrs)
    (children : List Node) (t : String) :
    set_cell_text (Node.elem tag attrs children) ""
        = clear_cell_content (Node.elem tag attrs children)
    ∧ clear_cell_content (clear_cell_content (Node.elem tag attrs children))
        = clear_cell_content (Node.elem tag attrs children)
    ∧ set_cell_text (set_cell_text (Node.elem tag attrs children) t) t
        = set_cell_text (Node.elem tag attrs children) t
    ∧ (isEmptyCell (Node.elem tag attrs children) = true →
        clear_cell_content (Node.elem tag attrs children)
          = Node.elem tag attrs children) := by
  have hclear2 : clear_cell_content (clear_cell_content (Node.elem tag attrs children))
      = clear_cell_content (Node.elem tag attrs children) := by
    simp only [clear_cell_content]
    rw [cleared_pops_idempotent]
  refine ⟨rfl, hclear2, ?_, ?_⟩
  · by_cases ht : t = ""
    · subst ht
      have e : set_cell_text (Node.elem tag attrs children) ""
          = clear_cell_content (Node.elem tag attrs children) := rfl
      rw [e]
      have e2 : set_cell_text (clear_cell_content (Node.elem tag attrs children)) ""
          = clear_cell_content (clear_cell_content (Node.elem tag attrs children)) := rfl
      rw [e2, hclear2]
    · have hset_eq : set_cell_text (Node.elem tag attrs children) t
          = Node.elem tag
              (setAttr (popAttrExact (popAttrExact (popAttrExact attrs "value")
                  "value-type") "date-value") "valuetype" "string")
              [P t] := by
        simp only [set_cell_text, clear_cell_content, setNodeAttr, List.nil_append]
        rw [if_neg ht]
      rw [hset_eq]
      simp only [set_cell_text, clear_cell_content, setNodeAttr, List.nil_append]
      rw [if_neg ht, cleared_setAttr_pops_fixed, setAttr_setAttr_self]
  · intro h
    simp only [isEmptyCell, nodeChildren, nodeAttrs, Bool.and_eq_true,
      List.isEmpty_iff, Option.isNone_iff_eq_none, decide_eq_true_eq] at h
    obtain ⟨⟨⟨h1, h2⟩, h3⟩, h4⟩ := h
    subst h1
    simp only [clear_cell_content]
    rw [cleared_of_none attrs h2 h3 h4]

/-- Witness for C9: on a styled empty cell, setting "" equals clear, setting
"X" twice equals setting it once, and clear is a no-op. -/
theorem set_cell_text_clear_idempotent_witness :
    set_cell_text (Node.elem "table:table-cell" [("stylename", "ce1")] []) ""
        = clear_cell_content (Node.elem "table:table-cell" [("stylename", "ce1")] [])
    ∧ set_cell_text
        (set_cell_text (Node.elem "table:table-cell" [("stylename", "ce1")] []) "X") "X"
        = set_cell_text (Node.elem "table:table-cell" [("stylename", "ce1")] []) "X"
    ∧ clear_cell_content (Node.elem "table:table-cell" [("stylename", "ce1")] [])
        = Node.elem "table:table-cell" [("stylename", "ce1")] [] :=
  have h := set_cell_text_clear_idempotent_spec "table:table-cell"
    [("stylename", "ce1")] [] "X"
  ⟨h.1, h.2.2.1, h.2.2.2 (by decide)⟩

/-! ## Lemmas: log entries and reason tags -/

theorem isPrefixOf_append_self (l r : List Char) :
    List.isPrefixOf l (l ++ r) = true := by
  induction l with
  | nil => simp [List.isPrefixOf]
  | cons c cs ih => simp [List.isPrefixOf, ih]

/-- A formatted entry is the reason header followed by a comma and the rest
(the base-field list is never empty). -/
theorem format_log_entry_eq (reason : String) (record : Record)
    (extra : List (String × String)) :
    ∃ rest : String,
      format_log_entry reason record extra = ("Reason=" ++ reason) ++ "," ++ rest := by
  simp only [format_log_entry, BASE_FIELDS, List.map_cons, List.cons_append]
  exact ⟨_, rfl⟩

/-- An entry formatted with a reason carries that reason tag. -/
theorem isEntryTag_format_self (tag : String) (record : Record)
    (extra : List (String × String)) :
    isEntryTag tag (format_log_entry tag record extra) = true := by
  obtain ⟨rest, he⟩ := format_log_entry_eq tag record extra
  rw [he]
  simp only [isEntryTag, String.data_append]
  rw [List.append_assoc]
  exact isPrefixOf_append_self _ _

theorem countTag_append (tag : String) (l1 l2 : List String) :
    countTag tag (l1 ++ l2) = countTag tag l1 + countTag tag l2 := by
  simp [countTag, List.countP_append]

theorem countTag_singleton_self (tag : String) (record : Record)
    (extra : List (String × String)) :
    countTag tag [format_log_entry tag record extra] = 1 := by
  simp [countTag, List.countP_cons, isEntryTag_format_self]

/-- A PARSE_ERROR entry does not carry the TOTAL_MISMATCH tag. -/
theorem isEntryTag_TM_of_PE (record : Record) (extra : List (String × String)) :
    isEntryTag "TOTAL_MISMATCH" (format_log_entry "PARSE_ERROR" record extra) = false := by
  obtain ⟨rest, he⟩ := format_log_entry_eq "PARSE_ERROR" record extra
  rw [he]
  simp only [isEntryTag, String.data_append]
  rfl

/-! ## Lemmas: parse_decimal and the totals fold -/

/-- The log side of parse_decimal either is untouched or gains exactly one
PARSE_ERROR entry. -/
theorem parse_decimal_snd (v : Option String) (r : Record) (f : String)
    (logs : List String) :
    (parse_decimal v r f logs).2 = logs
    ∨ (parse_decimal v r f logs).2
        = logs ++ [format_log_entry "PARSE_ERROR" r
            [("Field", f), ("Value", v.getD "")]] := by
  by_cases hc : normalize_number_text v = ""
  · left; simp [parse_decimal, hc]
  · cases hp : parseDec? (normalize_number_text v) with
    | some d => left; simp [parse_decimal, hc, hp]
    | none => right; simp [parse_decimal, hc, hp]

theorem countTag_TM_parse_decimal (v : Option String) (r : Record) (f : String)
    (logs : List String) :
    countTag "TOTAL_MISMATCH" (parse_decimal v r f logs).2
      = countTag "TOTAL_MISMATCH" logs := by
  rcases parse_decimal_snd v r f logs with h | h <;> rw [h]
  rw [countTag_append]
  simp [countTag, List.countP_cons, isEntryTag_TM_of_PE]

theorem countTag_TM_items_fold (r : Record) (ixs : List Nat) :
    ∀ acc : Dec × List String,
      countTag "TOTAL_MISMATCH"
        ((ixs.foldl
          (fun acc index =>
            let q := parse_decimal (r (productField index "Total")) r
              (productField index "Total") acc.2
            (Dec.add acc.1 q.1, q.2)) acc).2)
        = countTag "TOTAL_MISMATCH" acc.2 := by
  induction ixs with
  | nil => intro acc; rfl
  | cons i rest ih =>
    intro acc
    rw [List.foldl_cons, ih]
    exact countTag_TM_parse_decimal _ r _ acc.2

theorem countTag_TM_line_items (r : Record) (logs : List String) :
    countTag "TOTAL_MISMATCH" (line_items_sum r logs).2
      = countTag "TOTAL_MISMATCH" logs := by
  exact countTag_TM_items_fold r (List.range' 1 16) (⟨0, 0⟩, logs)

/-- Numeric equality of two decimals is the cross-multiplied comparison of
their scaled integers. -/
theorem Dec.val_eq_iff (a b : Dec) :
    Dec.val a = Dec.val b
      ↔ a.mant * (10 : Int) ^ b.scale = b.mant * (10 : Int) ^ a.scale := by
  unfold Dec.val
  rw [div_eq_div_iff (by positivity) (by positivity)]
  constructor
  · intro h; exact_mod_cast h
  · intro h; exact_mod_cast h

/-! ## Claims about totals reconciliation and parsing -/

/-- C5: a TOTAL_MISMATCH entry is appended exactly when the accumulated sum of
the 16 parsed line-item totals differs numerically from the parsed grand total
(either side zero on a parse failure); the entry carries the sum and the
signed difference grand total minus sum; when they agree no mismatch entry is
appended. -/
theorem total_mismatch_spec (record : Record) (logs : List String) :
    (Dec.val (line_items_sum record logs).1
        = Dec.val (grand_total_step record logs).1 →
      process_record_totals record logs = (grand_total_step record logs).2)
    ∧ (Dec.val (line_items_sum record logs).1
        ≠ Dec.val (grand_total_step record logs).1 →
      process_record_totals record logs
        = (grand_total_step record logs).2
          ++ [format_log_entry "TOTAL_MISMATCH" record
              [("Sum(Product Totals)", Dec.render (line_items_sum record logs).1),
               ("Diff", Dec.render (Dec.sub (grand_total_step record logs).1
                  (line_items_sum record logs).1))]])
    ∧ countTag "TOTAL_MISMATCH" (process_record_totals record logs)
        = countTag "TOTAL_MISMATCH" logs
          + (if Dec.val (line_items_sum record logs).1
                = Dec.val (grand_total_step record logs).1 then 0 else 1) := by
  have hgTM : countTag "TOTAL_MISMATCH" (grand_total_step record logs).2
      = countTag "TOTAL_MISMATCH" logs := by
    rw [grand_total_step, countTag_TM_parse_decimal, countTag_TM_line_items]
  have hiff := Dec.val_eq_iff (line_items_sum record logs).1
    (grand_total_step record logs).1
  have hunf : process_record_totals record logs
      = if (line_items_sum record logs).1.mant
            * (10 : Int) ^ (grand_total_step record logs).1.scale
          ≠ (grand_total_step record logs).1.mant
            * (10 : Int) ^ (line_items_sum record logs).1.scale
        then (grand_total_step record logs).2
          ++ [format_log_entry "TOTAL_MISMATCH" record
              [("Sum(Product Totals)", Dec.render (line_items_sum record logs).1),
               ("Diff", Dec.render (Dec.sub (grand_total_step record logs).1
                  (line_items_sum record logs).1))]]
        else (grand_total_step record logs).2 := rfl
  by_cases heq : Dec.val (line_items_sum record logs).1
      = Dec.val (grand_total_step record logs).1
  · have hproc : process_record_totals record logs = (grand_total_step record logs).2 := by
      rw [hunf, if_neg (not_not_intro (hiff.mp heq))]
    exact ⟨fun _ => hproc, fun hne => absurd heq hne, by
      rw [hproc, hgTM, if_pos heq]; omega⟩
  · have hproc : process_record_totals record logs
        = (grand_total_step record logs).2
          ++ [format_log_entry "TOTAL_MISMATCH" record
              [("Sum(Product Totals)", Dec.render (line_items_sum record logs).1),
               ("Diff", Dec.render (Dec.sub (grand_total_step record logs).1
                  (line_items_sum record logs).1))]] := by
      rw [hunf, if_pos (fun hcross => heq (hiff.mpr hcross))]
    refine ⟨fun h => absurd h heq, fun _ => hproc, ?_⟩
    rw [hproc, countTag_append, hgTM, countTag_singleton_self, if_neg heq]

/-- Witness for C5: line items summing to 19.98 against a grand total of 19.99
log exactly one TOTAL_MISMATCH entry with Diff=0.01. -/
theorem total_mismatch_spec_witness :
    process_record_totals
      (fun f => if f = "Product 1 Total" then some "19.98"
        else if f = "Grand Total" then some "19.99" else none) []
      = ["Reason=TOTAL_MISMATCH,Serial No=,Order No=,Order Date=,Customer Name=,Grand Total=19.99,Sum(Product Totals)=19.98,Diff=0.01"] :=
  ((total_mismatch_spec
      (fun f => if f = "Product 1 Total" then some "19.98"
        else if f = "Grand Total" then some "19.99" else none) []).2.1
    (by rw [Ne, Dec.val_eq_iff]; decide)).trans (by decide)

/-- C6: a total field whose cleaned text is non-empty but fails decimal
parsing makes parse_decimal append exactly one PARSE_ERROR entry (carrying the
field and raw value) and return zero, so the field contributes zero to any
accumulated sum and processing continues. -/
theorem parse_error_spec (value : Option String) (record : Record) (field : String)
    (logs : List String)
    (h1 : normalize_number_text value ≠ "")
    (h2 : parseDec? (normalize_number_text value) = none) :
    parse_decimal value record field logs
      = (⟨0, 0⟩, logs ++ [format_log_entry "PARSE_ERROR" record
          [("Field", field), ("Value", value.getD "")]])
    ∧ countTag "PARSE_ERROR" (parse_decimal value record field logs).2
      = countTag "PARSE_ERROR" logs + 1 := by
  have he : parse_decimal value record field logs
      = (⟨0, 0⟩, logs ++ [format_log_entry "PARSE_ERROR" record
          [("Field", field), ("Value", value.getD "")]]) := by
    simp [parse_decimal, h1, h2]
  refine ⟨he, ?_⟩
  rw [he, countTag_append, countTag_singleton_self]

/-- Witness for C6: a grand-total field of N/A logs PARSE_ERROR and is treated
as zero. -/
theorem parse_error_spec_witness :
    parse_decimal (some "N/A")
      (fun f => if f = "Grand Total" then some "N/A" else none) "Grand Total" []
      = (⟨0, 0⟩,
        ["Reason=PARSE_ERROR,Serial No=,Order No=,Order Date=,Customer Name=,Grand Total=N/A,Field=Grand Total,Value=N/A"]) :=
  ((parse_error_spec (some "N/A")
      (fun f => if f = "Grand Total" then some "N/A" else none) "Grand Total" []
      (by decide) (by decide)).1).trans (by decide)

/-- Stripping a string of whitespace characters only yields the empty string. -/
theorem pyStrip_all_whitespace (s : String)
    (h : ∀ c ∈ s.data, c.isWhitespace = true) : pyStrip s = "" := by
  simp only [pyStrip]
  rw [List.dropWhile_eq_nil_iff.mpr h]
  rfl

/-- C10: a value whose text consists only of commas, dollar signs and
whitespace (so in particular a missing field, the empty string, whitespace
only, or separators only) cleans to the empty string, and parse_decimal then
returns zero without appending any log entry. -/
theorem parse_decimal_blank_spec (value : Option String) (record : Record)
    (field : String) (logs : List String)
    (h : ∀ s, value = some s → ∀ c ∈ s.data,
      c = ',' ∨ c = '$' ∨ c.isWhitespace = true) :
    normalize_number_text value = ""
    ∧ parse_decimal value record field logs = (⟨0, 0⟩, logs) := by
  have hn : normalize_number_text value = "" := by
    cases value with
    | none => rfl
    | some s =>
      have hall : ∀ c ∈ (pyReplaceChar (pyReplaceChar s ',') '$').data,
          c.isWhitespace = true := by
        have hdata : (pyReplaceChar (pyReplaceChar s ',') '$').data
            = (s.data.filter (fun x => x ≠ ',')).filter (fun x => x ≠ '$') := rfl
        rw [hdata]
        intro c hc
        simp only [List.mem_filter, decide_eq_true_eq] at hc
        obtain ⟨⟨hcs, hc1⟩, hc2⟩ := hc
        rcases h s rfl c hcs with hx | hx | hx
        · exact absurd hx hc1
        · exact absurd hx hc2
        · exact hx
      exact pyStrip_all_whitespace _ hall
  exact ⟨hn, by simp [parse_decimal, hn]⟩

/-- Witness for C10: a field of separators and blanks contributes zero and
leaves the log untouched. -/
theorem parse_decimal_blank_spec_witness :
    normalize_number_text (some " $,,$ ") = ""
    ∧ parse_decimal (some " $,,$ ") (fun _ => none) "Product 3 Total" ["keep"]
        = (⟨0, 0⟩, ["keep"]) :=
  parse_decimal_blank_spec (some " $,,$ ") (fun _ => none) "Product 3 Total" ["keep"]
    (by intro s hs; cases hs; decide)

/-! ## Claim about overflow detection (line items 17-25) -/

/-- C7: exactly one HAS_PRODUCT_17_25 entry is appended if and only if some
field Product i SKU/Name/Quantity/Price/Total with 17 <= i <= 25 is non-empty
after trimming; and the record-dependent cell writes of the block never read
those fields, so the rendered document is the same whatever they hold. -/
theorem overflow_spec (record g : Record) (logs : List String) :
    countTag "HAS_PRODUCT_17_25" (overflow_log record logs)
        = countTag "HAS_PRODUCT_17_25" logs
          + (if has_products_17_25 record = true then 1 else 0)
    ∧ (has_products_17_25 record = true ↔
        ∃ i, 17 ≤ i ∧ i ≤ 25
          ∧ ∃ su ∈ (["Name", "SKU", "Quantity", "Price", "Total"] : List String),
            normalize_text (record (productField i su)) ≠ "")
    ∧ block_writes (overrideOverflow record g) = block_writes record := by
  refine ⟨?_, ?_, ?_⟩
  · by_cases h : has_products_17_25 record = true
    · rw [overflow_log, if_pos h, if_pos h, countTag_append, countTag_singleton_self]
    · rw [overflow_log, if_neg h, if_neg h]
      omega
  · simp only [has_products_17_25, List.any_eq_true, List.mem_range'_1,
      bne_iff_ne]
    constructor
    · rintro ⟨i, ⟨h17, h26⟩, su, hsu, hne⟩
      exact ⟨i, h17, by omega, su, hsu, hne⟩
    · rintro ⟨i, h17, h25, su, hsu, hne⟩
      exact ⟨i, ⟨h17, by omega⟩, su, hsu, hne⟩
  · rfl

/-- Witness for C7: a record whose only populated field is Product 20 Name
logs exactly one overflow entry while the block writes are those of the empty
record. -/
theorem overflow_spec_witness :
    countTag "HAS_PRODUCT_17_25"
        (overflow_log (fun f => if f = "Product 20 Name" then some "Gadget" else none) [])
      = countTag "HAS_PRODUCT_17_25" []
        + (if has_products_17_25
              (fun f => if f = "Product 20 Name" then some "Gadget" else none) = true
          then 1 else 0)
    ∧ block_writes
        (overrideOverflow (fun f => if f = "Product 20 Name" then some "Gadget" else none)
          (fun _ => some "overflow junk"))
      = block_writes (fun f => if f = "Product 20 Name" then some "Gadget" else none) :=
  ⟨(overflow_spec (fun f => if f = "Product 20 Name" then some "Gadget" else none)
      (fun _ => some "overflow junk") []).1,
   (overflow_spec (fun f => if f = "Product 20 Name" then some "Gadget" else none)
      (fun _ => some "overflow junk") []).2.2⟩

/-! ## Claim about the page-break attributes -/

theorem nodeIsElem_setNodeAttr (n : Node) (k v : String) :
    nodeIsElem (setNodeAttr n k v) = nodeIsElem n := by
  cases n <;> rfl

theorem getNodeAttr_setNodeAttr_of_canon_ne (n : Node) (k k2 v : String)
    (h : canonAttr k2 ≠ canonAttr k) :
    getNodeAttr (setNodeAttr n k v) k2 = getNodeAttr n k2 := by
  cases n with
  | text d => rfl
  | elem tg a c =>
    simp only [setNodeAttr, getNodeAttr, nodeAttrs]
    exact getAttr_setAttr_of_canon_ne a k k2 v h

/-- One step of the page-break fold. -/
theorem apply_page_break_cons (row : Node) (p : String × String)
    (rest : Attrs) :
    apply_page_break row (p :: rest)
      = apply_page_break
          (if p.1 = "numberrowsrepeated" then row else setNodeAttr row p.1 p.2)
          rest := rfl

/-- The page-break fold never touches an attribute whose canonical name none
of the copied keys carries. -/
theorem apply_page_break_frame (break_attrs : Attrs) :
    ∀ (row : Node) (k : String),
      (∀ p ∈ break_attrs, p.1 ≠ "numberrowsrepeated" → canonAttr p.1 ≠ canonAttr k) →
      getNodeAttr (apply_page_break row break_attrs) k = getNodeAttr row k := by
  induction break_attrs with
  | nil => intro row k _; rfl
  | cons p rest ih =>
    intro row k h
    rw [apply_page_break_cons]
    by_cases hp : p.1 = "numberrowsrepeated"
    · rw [if_pos hp]
      exact ih row k (fun q hq => h q (List.mem_cons_of_mem p hq))
    · rw [if_neg hp]
      rw [ih (setNodeAttr row p.1 p.2) k (fun q hq => h q (List.mem_cons_of_mem p hq))]
      exact getNodeAttr_setNodeAttr_of_canon_ne row p.1 k p.2
        (h p (List.mem_cons_self p rest) hp).symm

/-- Every copied pair lands on the row. -/
theorem apply_page_break_sets (break_attrs : Attrs) :
    ∀ (row : Node), nodeIsElem row = true →
      canonKeys break_attrs →
      break_attrs.Pairwise (fun p q => p.1 ≠ q.1) →
      ∀ k v, (k, v) ∈ break_attrs → k ≠ "numberrowsrepeated" →
      getNodeAttr (apply_page_break row break_attrs) k = some v := by
  induction break_attrs with
  | nil =>
    intro row _ _ _ k v hmem _
    exact absurd hmem (List.not_mem_nil _)
  | cons p rest ih =>
    intro row helem hcanon hnodup k v hmem hk
    rw [apply_page_break_cons]
    have hcanrest : canonKeys rest := fun q hq => hcanon q (List.mem_cons_of_mem p hq)
    have hnoduprest := (List.pairwise_cons.mp hnodup).2
    rcases List.mem_cons.mp hmem with heq | hrest
    · -- the head pair is copied now and survives the rest of the fold
      have hkp : p = (k, v) := heq.symm
      subst hkp
      rw [if_neg hk]
      have hframe : ∀ q ∈ rest, q.1 ≠ "numberrowsrepeated" →
          canonAttr q.1 ≠ canonAttr k := by
        intro q hq _
        rw [hcanrest q hq, hcanon (k, v) (List.mem_cons_self _ _)]
        exact ((List.pairwise_cons.mp hnodup).1 q hq).symm
      rw [apply_page_break_frame rest (setNodeAttr row k v) k hframe]
      cases row with
      | text d => simp [nodeIsElem] at helem
      | elem tg a c =>
        simp only [setNodeAttr, getNodeAttr, nodeAttrs]
        exact getAttr_setAttr_self a k v
    · by_cases hp : p.1 = "numberrowsrepeated"
      · rw [if_pos hp]
        exact ih row helem hcanrest hnoduprest k v hrest hk
      · rw [if_neg hp]
        exact ih (setNodeAttr row p.1 p.2)
          ((nodeIsElem_setNodeAttr row p.1 p.2).trans helem)
          hcanrest hnoduprest k v hrest hk

/-- The page-break fold keeps the element shape: same tag, same children. -/
theorem apply_page_break_shape (break_attrs : Attrs) :
    ∀ (tag : String) (attrs : Attrs) (children : List Node),
      ∃ attrs2, apply_page_break (Node.elem tag attrs children) break_attrs
          = Node.elem tag attrs2 children := by
  induction break_attrs with
  | nil => exact fun tag attrs children => ⟨attrs, rfl⟩
  | cons p rest ih =>
    intro tag attrs children
    rw [apply_page_break_cons]
    by_cases hp : p.1 = "numberrowsrepeated"
    · rw [if_pos hp]
      exact ih tag attrs children
    · rw [if_neg hp]
      exact ih tag (setAttr attrs p.1 p.2) children

/-- C4: applying the saved page-break attributes to a block's first row copies
every saved attribute other than the repeat count onto the row, never copies
the repeat-count attribute (the row's own repeat count is untouched), leaves
every attribute outside the saved set untouched, and preserves the row's tag
and content. -/
theorem apply_page_break_spec (tag : String) (attrs : Attrs) (children : List Node)
    (break_attrs : Attrs)
    (hcanon : canonKeys break_attrs)
    (hnodup : break_attrs.Pairwise (fun p q => p.1 ≠ q.1)) :
    getNodeAttr (apply_page_break (Node.elem tag attrs children) break_attrs)
        "numberrowsrepeated"
      = getAttr attrs "numberrowsrepeated"
    ∧ (∀ k v, (k, v) ∈ break_attrs → k ≠ "numberrowsrepeated" →
        getNodeAttr (apply_page_break (Node.elem tag attrs children) break_attrs) k
          = some v)
    ∧ (∀ k, (∀ p ∈ break_attrs, canonAttr p.1 ≠ canonAttr k) →
        getNodeAttr (apply_page_break (Node.elem tag attrs children) break_attrs) k
          = getAttr attrs k)
    ∧ tagName? (apply_page_break (Node.elem tag attrs children) break_attrs) = some tag
    ∧ nodeChildren (apply_page_break (Node.elem tag attrs children) break_attrs)
        = children := by
  obtain ⟨attrs2, hshape⟩ := apply_page_break_shape break_attrs tag attrs children
  refine ⟨?_, ?_, ?_, by rw [hshape]; rfl, by rw [hshape]; rfl⟩
  · have h : ∀ p ∈ break_attrs, p.1 ≠ "numberrowsrepeated" →
        canonAttr p.1 ≠ canonAttr "numberrowsrepeated" := by
      intro p hp hne
      rw [hcanon p hp, (by decide : canonAttr "numberrowsrepeated" = "numberrowsrepeated")]
      exact hne
    rw [apply_page_break_frame break_attrs _ _ h]
    rfl
  · exact apply_page_break_sets break_attrs _ rfl hcanon hnodup
  · intro k hk
    rw [apply_page_break_frame break_attrs _ _ (fun p hp _ => hk p hp)]
    rfl

/-- Witness for C4: a saved set carrying a style, a repeat count and a
page-break flag stamps the style and flag but never the repeat count. -/
theorem apply_page_break_spec_witness :
    getNodeAttr (apply_page_break (Node.elem "table:table-row" [("stylename", "ro1")] [])
        [("stylename", "ro2"), ("numberrowsrepeated", "969"), ("breakbefore", "page")])
        "numberrowsrepeated"
      = getAttr [("stylename", "ro1")] "numberrowsrepeated"
    ∧ getNodeAttr (apply_page_break (Node.elem "table:table-row" [("stylename", "ro1")] [])
        [("stylename", "ro2"), ("numberrowsrepeated", "969"), ("breakbefore", "page")])
        "breakbefore"
      = some "page" :=
  ⟨(apply_page_break_spec "table:table-row" [("stylename", "ro1")] []
      [("stylename", "ro2"), ("numberrowsrepeated", "969"), ("breakbefore", "page")]
      (by unfold canonKeys; decide) (by decide)).1,
   (apply_page_break_spec "table:table-row" [("stylename", "ro1")] []
      [("stylename", "ro2"), ("numberrowsrepeated", "969"), ("breakbefore", "page")]
      (by unfold canonKeys; decide) (by decide)).2.1 "breakbefore" "page" (by decide) (by decide)⟩

/-! ## Claim about the print range -/

/-- C8: with at least one record processed, the print-ranges attribute of the
sheet is set to rows 1 through records * 31 of PRINT_ALL (every other
attribute, the tag and the rows untouched); with zero records the sheet is not
mutated at all. -/
theorem set_print_range_spec (tag : String) (attrs : Attrs) (children : List Node)
    (n : Nat) :
    (0 < n →
      getNodeAttr (set_print_range (Node.elem tag attrs children) n) "print-ranges"
          = some ("\x27PRINT_ALL\x27.A1:\x27PRINT_ALL\x27.R" ++ natToString (n * 31))
        ∧ (∀ k, canonAttr k ≠ canonAttr "print-ranges" →
            getNodeAttr (set_print_range (Node.elem tag attrs children) n) k
              = getAttr attrs k)
        ∧ tagName? (set_print_range (Node.elem tag attrs children) n) = some tag
        ∧ nodeChildren (set_print_range (Node.elem tag attrs children) n) = children)
    ∧ (n = 0 →
        set_print_range (Node.elem tag attrs children) n
          = Node.elem tag attrs children) := by
  constructor
  · intro hn
    simp only [set_print_range]
    rw [if_pos hn]
    refine ⟨?_, ?_, rfl, rfl⟩
    · simp only [setNodeAttr, getNodeAttr, nodeAttrs]
      exact getAttr_setAttr_self attrs _ _
    · intro k hk
      simp only [setNodeAttr, getNodeAttr, nodeAttrs]
      exact getAttr_setAttr_of_canon_ne attrs _ k _ hk
  · intro hn
    subst hn
    simp [set_print_range]

/-- Witness for C8: three records set the print range to rows 1-93, zero
records leave the sheet alone. -/
theorem set_print_range_spec_witness :
    getNodeAttr (set_print_range (Node.elem "table:table" [("name", "PRINT_ALL")] []) 3)
        "print-ranges"
      = some "\x27PRINT_ALL\x27.A1:\x27PRINT_ALL\x27.R93"
    ∧ set_print_range (Node.elem "table:table" [("name", "PRINT_ALL")] []) 0
      = Node.elem "table:table" [("name", "PRINT_ALL")] [] :=
  ⟨(((set_print_range_spec "table:table" [("name", "PRINT_ALL")] [] 3).1
      (by decide)).1).trans (by decide),
   (set_print_range_spec "table:table" [("name", "PRINT_ALL")] [] 0).2 rfl⟩

/-! ## Lemmas: the heap model -/

theorem mem_of_store_getElem? {s : Store} {i : Nat} {n : HNode}
    (h : s[i]? = some n) : n ∈ s := by
  obtain ⟨hlt, he⟩ := List.getElem?_eq_some.mp h
  exact he ▸ List.getElem_mem hlt

theorem store_lt_of_getElem? {s : Store} {i : Nat} {n : HNode}
    (h : s[i]? = some n) : i < s.length :=
  (List.getElem?_eq_some.mp h).1

/-- Reading identities below a common prefix is insensitive to the store
beyond the prefix. -/
theorem readChildrenH_low_agree :
    ∀ (f : Nat) (s s2 : Store) (ids : List Nat),
      wfClosed s → (∀ i, i < s.length → s2[i]? = s[i]?) →
      (∀ i ∈ ids, i < s.length) →
      readChildrenH f s2 ids = readChildrenH f s ids := by
  intro f
  induction f with
  | zero =>
    intro s s2 ids _ _ _
    cases ids with
    | nil => rfl
    | cons i rest => rfl
  | succ f ih =>
    intro s s2 ids hwf hag hin
    cases ids with
    | nil => rfl
    | cons i rest =>
      have hag1 : s2[i]? = s[i]? := hag i (hin i (List.mem_cons_self i rest))
      have hrest : ∀ j ∈ rest, j < s.length :=
        fun j hj => hin j (List.mem_cons_of_mem i hj)
      cases hsi : s[i]? with
      | none => simp only [readChildrenH, hag1, hsi]
      | some n =>
        have hch : ∀ c ∈ n.children, c < s.length :=
          hwf n (mem_of_store_getElem? hsi)
        cases htag : n.tag with
        | none =>
          simp only [readChildrenH, hag1, hsi, htag]
          rw [ih s s2 rest hwf hag hrest]
        | some tg =>
          simp only [readChildrenH, hag1, hsi, htag]
          rw [ih s s2 n.children hwf hag hch]
          cases hA : readChildrenH f s n.children with
          | none => rfl
          | some ts =>
            simp only [Option.map_some']
            rw [ih s s2 rest hwf hag hrest]

/-- Reading identities inside a closed high region only consults that
region. -/
theorem readChildrenH_high_agree :
    ∀ (f : Nat) (s1 s2 : Store) (m : Nat) (ids : List Nat),
      (∀ i, m ≤ i → s1[i]? = s2[i]?) →
      (∀ i n, m ≤ i → s1[i]? = some n → ∀ c ∈ n.children, m ≤ c) →
      (∀ i ∈ ids, m ≤ i) →
      readChildrenH f s1 ids = readChildrenH f s2 ids := by
  intro f
  induction f with
  | zero =>
    intro s1 s2 m ids _ _ _
    cases ids with
    | nil => rfl
    | cons i rest => rfl
  | succ f ih =>
    intro s1 s2 m ids hag hhigh hin
    cases ids with
    | nil => rfl
    | cons i rest =>
      have hag1 : s1[i]? = s2[i]? := hag i (hin i (List.mem_cons_self i rest))
      have hrest : ∀ j ∈ rest, m ≤ j :=
        fun j hj => hin j (List.mem_cons_of_mem i hj)
      cases hsi : s1[i]? with
      | none => simp only [readChildrenH, ← hag1, hsi]
      | some n =>
        have hch : ∀ c ∈ n.children, m ≤ c :=
          hhigh i n (hin i (List.mem_cons_self i rest)) hsi
        cases htag : n.tag with
        | none =>
          simp only [readChildrenH, ← hag1, hsi, htag]
          rw [ih s1 s2 m rest hag hhigh hrest]
        | some tg =>
          simp only [readChildrenH, ← hag1, hsi, htag]
          rw [ih s1 s2 m n.children hag hhigh hch]
          cases hA : readChildrenH f s2 n.children with
          | none => rfl
          | some ts =>
            simp only [Option.map_some']
            rw [ih s1 s2 m rest hag hhigh hrest]

/-- Main clone lemma: a successful clone extends the store without touching
existing objects, allocates only fresh identities whose subgraph stays inside
the fresh region, and the copies denote exactly the trees the originals
denote. -/
theorem cloneChildrenH_spec :
    ∀ (f : Nat) (s : Store) (ids : List Nat) (s2 : Store) (ids2 : List Nat),
      wfClosed s → (∀ i ∈ ids, i < s.length) →
      cloneChildrenH f s ids = some (s2, ids2) →
      (∀ i, i < s.length → s2[i]? = s[i]?)
      ∧ s.length ≤ s2.length
      ∧ wfClosed s2
      ∧ (∀ j ∈ ids2, s.length ≤ j ∧ j < s2.length)
      ∧ (∀ i m, s.length ≤ i → s2[i]? = some m → ∀ c ∈ m.children, s.length ≤ c)
      ∧ (∃ ts, readChildrenH f s ids = some ts ∧ readChildrenH f s2 ids2 = some ts) := by
  intro f
  induction f with
  | zero =>
    intro s ids s2 ids2 hwf hin hcl
    cases ids with
    | nil =>
      simp only [cloneChildrenH, Option.some.injEq, Prod.mk.injEq] at hcl
      obtain ⟨rfl, rfl⟩ := hcl
      refine ⟨fun i _ => rfl, Nat.le_refl _, hwf, by simp, ?_, ⟨[], rfl, rfl⟩⟩
      intro i m hi hget c _
      rw [List.getElem?_eq_none hi] at hget
      exact absurd hget (by simp)
    | cons i rest => simp [cloneChildrenH] at hcl
  | succ f ih =>
    intro s ids s2 ids2 hwf hin hcl
    cases ids with
    | nil =>
      simp only [cloneChildrenH, Option.some.injEq, Prod.mk.injEq] at hcl
      obtain ⟨rfl, rfl⟩ := hcl
      refine ⟨fun i _ => rfl, Nat.le_refl _, hwf, by simp, ?_, ⟨[], rfl, rfl⟩⟩
      intro i m hi hget c _
      rw [List.getElem?_eq_none hi] at hget
      exact absurd hget (by simp)
    | cons id rest =>
      cases hid : s[id]? with
      | none => simp [cloneChildrenH, hid] at hcl
      | some n =>
        have hidlt : id < s.length := store_lt_of_getElem? hid
        have hnmem : n ∈ s := mem_of_store_getElem? hid
        have hrestlt : ∀ j ∈ rest, j < s.length :=
          fun j hj => hin j (List.mem_cons_of_mem id hj)
        cases htag : n.tag with
        | none =>
          simp only [cloneChildrenH, hid, htag] at hcl
          obtain ⟨⟨s2x, restIds⟩, hrest, heq⟩ := Option.map_eq_some'.mp hcl
          simp only [Prod.mk.injEq] at heq
          obtain ⟨rfl, rfl⟩ := heq
          have hwf1 : wfClosed (s ++ [⟨none, n.data, [], []⟩]) := by
            intro m hm c hc
            rcases List.mem_append.mp hm with hm | hm
            · have := hwf m hm c hc
              simp only [List.length_append, List.length_cons, List.length_nil]
              omega
            · simp only [List.mem_singleton] at hm
              subst hm
              simp at hc
          have hpre1 : ∀ i, i < s.length →
              (s ++ [(⟨none, n.data, [], []⟩ : HNode)])[i]? = s[i]? :=
            fun i hi => List.getElem?_append_left hi
          have hlen1 : (s ++ [(⟨none, n.data, [], []⟩ : HNode)]).length = s.length + 1 := by
            simp
          have hrest1lt : ∀ j ∈ rest,
              j < (s ++ [(⟨none, n.data, [], []⟩ : HNode)]).length := by
            intro j hj
            have := hrestlt j hj
            omega
          obtain ⟨hpre2, hlen2, hwf2, hbnd2, hhigh2, ts_r, hr1, hr2⟩ :=
            ih (s ++ [⟨none, n.data, [], []⟩]) rest s2x restIds hwf1 hrest1lt hrest
          have hrs : readChildrenH f s rest = some ts_r := by
            rw [← readChildrenH_low_agree f s (s ++ [⟨none, n.data, [], []⟩]) rest
              hwf hpre1 hrestlt]
            exact hr1
          refine ⟨?_, by omega, hwf2, ?_, ?_, ?_⟩
          · intro i hi
            rw [hpre2 i (by omega), hpre1 i hi]
          · intro j hj
            rcases List.mem_cons.mp hj with rfl | hj
            · exact ⟨Nat.le_refl _, by omega⟩
            · have := hbnd2 j hj
              omega
          · intro i m hi hget c hc
            by_cases hlt : i < (s ++ [(⟨none, n.data, [], []⟩ : HNode)]).length
            · rw [hpre2 i hlt] at hget
              have hieq : i = s.length := by omega
              subst hieq
              rw [List.getElem?_concat_length] at hget
              injection hget with hget
              subst hget
              simp at hc
            · have := hhigh2 i m (by omega) hget c hc
              omega
          · refine ⟨Node.text n.data :: ts_r, ?_, ?_⟩
            · simp only [readChildrenH, hid, htag, hrs, Option.map_some']
            · have hb : s2x[s.length]? = some (⟨none, n.data, [], []⟩ : HNode) := by
                rw [hpre2 s.length (by omega), List.getElem?_concat_length]
              simp only [readChildrenH, hb, hr2, Option.map_some']
        | some tg =>
          simp only [cloneChildrenH, hid, htag] at hcl
          cases hch : cloneChildrenH f s n.children with
          | none => simp [hch] at hcl
          | some rc =>
            obtain ⟨s1c, kids⟩ := rc
            simp only [hch, Option.map_some'] at hcl
            obtain ⟨⟨s2x, restIds⟩, hrest, heq⟩ := Option.map_eq_some'.mp hcl
            simp only [Prod.mk.injEq] at heq
            obtain ⟨rfl, rfl⟩ := heq
            have hchlt : ∀ c ∈ n.children, c < s.length := hwf n hnmem
            obtain ⟨hpreC, hlenC, hwfC, hbndC, hhighC, ts_c, hc1, hc2⟩ :=
              ih s n.children s1c kids hwf hchlt hch
            have hwf1 : wfClosed (s1c ++ [⟨some tg, "", n.attrs, kids⟩]) := by
              intro m hm c hc
              rcases List.mem_append.mp hm with hm | hm
              · have := hwfC m hm c hc
                simp only [List.length_append, List.length_cons, List.length_nil]
                omega
              · simp only [List.mem_singleton] at hm
                subst hm
                simp only [List.length_append, List.length_cons, List.length_nil]
                have := (hbndC c hc).2
                omega
            have hpre1 : ∀ i, i < s1c.length →
                (s1c ++ [(⟨some tg, "", n.attrs, kids⟩ : HNode)])[i]? = s1c[i]? :=
              fun i hi => List.getElem?_append_left hi
            have hlen1 : (s1c ++ [(⟨some tg, "", n.attrs, kids⟩ : HNode)]).length
                = s1c.length + 1 := by simp
            have hrest1lt : ∀ j ∈ rest,
                j < (s1c ++ [(⟨some tg, "", n.attrs, kids⟩ : HNode)]).length := by
              intro j hj
              have := hrestlt j hj
              omega
            obtain ⟨hpre2, hlen2, hwf2, hbnd2, hhigh2, ts_r, hr1, hr2⟩ :=
              ih (s1c ++ [⟨some tg, "", n.attrs, kids⟩]) rest s2x restIds hwf1
                hrest1lt hrest
            have hpre1s : ∀ i, i < s.length →
                (s1c ++ [(⟨some tg, "", n.attrs, kids⟩ : HNode)])[i]? = s[i]? := by
              intro i hi
              rw [hpre1 i (by omega), hpreC i hi]
            have hrs : readChildrenH f s rest = some ts_r := by
              rw [← readChildrenH_low_agree f s
                (s1c ++ [⟨some tg, "", n.attrs, kids⟩]) rest hwf hpre1s hrestlt]
              exact hr1
            refine ⟨?_, by omega, hwf2, ?_, ?_, ?_⟩
            · intro i hi
              rw [hpre2 i (by omega), hpre1s i hi]
            · intro j hj
              rcases List.mem_cons.mp hj with rfl | hj
              · exact ⟨by omega, by omega⟩
              · have := hbnd2 j hj
                omega
            · intro i m hi hget c hc
              by_cases hlt : i < (s1c ++ [(⟨some tg, "", n.attrs, kids⟩ : HNode)]).length
              · rw [hpre2 i hlt] at hget
                by_cases hltc : i < s1c.length
                · rw [hpre1 i hltc] at hget
                  exact hhighC i m hi hget c hc
                · have hieq : i = s1c.length := by omega
                  subst hieq
                  rw [List.getElem?_concat_length] at hget
                  injection hget with hget
                  subst hget
                  exact (hbndC c hc).1
              · have := hhigh2 i m (by omega) hget c hc
                omega
            · have hb : s2x[s1c.length]?
                  = some (⟨some tg, "", n.attrs, kids⟩ : HNode) := by
                rw [hpre2 s1c.length (by omega), List.getElem?_concat_length]
              have hkids2 : readChildrenH f s2x kids = some ts_c := by
                have hag : ∀ i, i < s1c.length → s2x[i]? = s1c[i]? := by
                  intro i hi
                  rw [hpre2 i (by omega), hpre1 i hi]
                rw [readChildrenH_low_agree f s1c s2x kids hwfC hag
                  (fun j hj => (hbndC j hj).2)]
                exact hc2
              refine ⟨Node.elem tg n.attrs ts_c :: ts_r, ?_, ?_⟩
              · simp only [readChildrenH, hid, htag, hc1, hrs, Option.map_some']
              · simp only [readChildrenH, hb, hkids2, hr2, Option.map_some']

theorem readTreeH_eq_some (f : Nat) (s : Store) (id : Nat) (t : Node) :
    readTreeH f s id = some t ↔ readChildrenH f s [id] = some [t] := by
  unfold readTreeH
  cases h : readChildrenH f s [id] with
  | none => simp
  | some ts =>
    cases ts with
    | nil => simp
    | cons x rest =>
      cases rest with
      | nil => simp
      | cons y r => simp

theorem cloneNodeH_eq_some (f : Nat) (s : Store) (id : Nat) (s2 : Store) (b : Nat) :
    cloneNodeH f s id = some (s2, b) ↔ cloneChildrenH f s [id] = some (s2, [b]) := by
  unfold cloneNodeH
  cases h : cloneChildrenH f s [id] with
  | none => simp
  | some r =>
    obtain ⟨s3, ids⟩ := r
    cases ids with
    | nil => simp
    | cons x rest =>
      cases rest with
      | nil => simp
      | cons y rr => simp

theorem readChildrenH_head_lt (f : Nat) (s : Store) (i : Nat) (rest : List Nat)
    (ts : List Node) (h : readChildrenH f s (i :: rest) = some ts) :
    i < s.length := by
  cases f with
  | zero => simp [readChildrenH] at h
  | succ f =>
    by_contra hge
    rw [readChildrenH, List.getElem?_eq_none (by omega)] at h
    exact absurd h (by simp)

theorem clearCellContentH_getElem?_ne (s : Store) (id i : Nat) (h : i ≠ id) :
    (clearCellContentH s id)[i]? = s[i]? := by
  unfold clearCellContentH
  cases hid : s[id]? with
  | none => rfl
  | some n => exact List.getElem?_set_ne (fun hx => h hx.symm)

/-- C2: cloning a node against the object store yields a structurally equal
copy (same denoted tree, content and attributes included), and the copy is
independent: clearing the copy leaves the original's denotation unchanged,
and clearing the original leaves the copy's denotation unchanged. -/
theorem clone_node_independence (f : Nat) (s : Store) (a : Nat) (t : Node)
    (s2 : Store) (b : Nat)
    (hwf : wfClosed s)
    (hread : readTreeH f s a = some t)
    (hclone : cloneNodeH f s a = some (s2, b)) :
    s.length ≤ b
    ∧ readTreeH f s2 b = some t
    ∧ readTreeH f (clearCellContentH s2 b) a = some t
    ∧ readTreeH f (clearCellContentH s2 a) b = some t := by
  have hrc : readChildrenH f s [a] = some [t] := (readTreeH_eq_some f s a t).mp hread
  have hcc : cloneChildrenH f s [a] = some (s2, [b]) :=
    (cloneNodeH_eq_some f s a s2 b).mp hclone
  have halt : a < s.length := readChildrenH_head_lt f s a [] [t] hrc
  obtain ⟨hpre, hlen, hwf2, hbnd, hhigh, ts, hts1, hts2⟩ :=
    cloneChildrenH_spec f s [a] s2 [b] hwf (by intro i hi; simp at hi; omega) hcc
  have hts : ts = [t] := by
    rw [hrc] at hts1
    exact (Option.some.inj hts1).symm
  subst hts
  obtain ⟨hble, hblt⟩ := hbnd b (List.mem_cons_self b [])
  refine ⟨hble, (readTreeH_eq_some f s2 b t).mpr hts2, ?_, ?_⟩
  · -- clearing the copy does not alter the original
    refine (readTreeH_eq_some f _ a t).mpr ?_
    rw [readChildrenH_low_agree f s (clearCellContentH s2 b) [a] hwf ?_
      (by intro i hi; simp at hi; omega)]
    · exact hrc
    · intro i hi
      rw [clearCellContentH_getElem?_ne s2 b i (by omega), hpre i hi]
  · -- clearing the original does not alter the copy
    refine (readTreeH_eq_some f _ b t).mpr ?_
    rw [← readChildrenH_high_agree f s2 (clearCellContentH s2 a) s.length [b] ?_
      hhigh (by intro i hi; simp at hi; omega)]
    · exact hts2
    · intro i hi
      rw [clearCellContentH_getElem?_ne s2 a i (by omega)]

/-- Witness for C2: cloning a string cell holding one text node; clearing the
copy (or the original) leaves the other's denotation intact. -/
theorem clone_node_independence_witness :
    (2 : Nat) ≤ 3
    ∧ readTreeH 3
        [⟨none, "hello", [], []⟩,
         ⟨some "table:table-cell", "", [("valuetype", "string"), ("value", "3")], [0]⟩,
         ⟨none, "hello", [], []⟩,
         ⟨some "table:table-cell", "", [("valuetype", "string"), ("value", "3")], [2]⟩]
        3
      = some (Node.elem "table:table-cell" [("valuetype", "string"), ("value", "3")]
          [Node.text "hello"])
    ∧ readTreeH 3
        (clearCellContentH
          [⟨none, "hello", [], []⟩,
           ⟨some "table:table-cell", "", [("valuetype", "string"), ("value", "3")], [0]⟩,
           ⟨none, "hello", [], []⟩,
           ⟨some "table:table-cell", "", [("valuetype", "string"), ("value", "3")], [2]⟩]
          3)
        1
      = some (Node.elem "table:table-cell" [("valuetype", "string"), ("value", "3")]
          [Node.text "hello"])
    ∧ readTreeH 3
        (clearCellContentH
          [⟨none, "hello", [], []⟩,
           ⟨some "table:table-cell", "", [("valuetype", "string"), ("value", "3")], [0]⟩,
           ⟨none, "hello", [], []⟩,
           ⟨some "table:table-cell", "", [("valuetype", "string"), ("value", "3")], [2]⟩]
          1)
        3
      = some (Node.elem "table:table-cell" [("valuetype", "string"), ("value", "3")]
          [Node.text "hello"]) :=
  clone_node_independence 3
    [⟨none, "hello", [], []⟩,
     ⟨some "table:table-cell", "", [("valuetype", "string"), ("value", "3")], [0]⟩]
    1
    (Node.elem "table:table-cell" [("valuetype", "string"), ("value", "3")]
      [Node.text "hello"])
    [⟨none, "hello", [], []⟩,
     ⟨some "table:table-cell", "", [("valuetype", "string"), ("value", "3")], [0]⟩,
     ⟨none, "hello", [], []⟩,
     ⟨some "table:table-cell", "", [("valuetype", "string"), ("value", "3")], [2]⟩]
    3
    (by unfold wfClosed; decide) (by decide) (by decide)
